import Mathlib

/-!
# BinTree: a binary search tree of `NodeData` objects

A shallow embedding of `bintree.h` / `bintree.cpp`.

* `NodeData` is declared in `nodedata.h`, which is outside the sources at hand.  It is
  taken as a type parameter `α` with a linear order: `operator==` of `NodeData` is
  equality of `α` and `operator<` is `<`.
* A `NodeData*` that is known to be non-NULL is a value of `α`; where the code tests a
  `NodeData*` for NULL (the slots of the arrays) it is an `Option α`.
* A `Node*` is a value of `Node α`: `Node.null` for NULL, `Node.node data left right`
  for a heap node.  Functions of the source that update the nodes in place return the
  new value of the pointer they were given.
* A `NodeData* array[]` is a `List (Option α)`; a read or a write outside of it is
  undefined behaviour of the source and makes the embedded function return `none`.
* `int` is `Int` (or `Nat` for the counters that only go up from 0), without overflow:
  the documented precondition of the array functions is at most 100 entries.
-/

/-- The struct `BinTree::Node` behind a `Node*`: NULL or a node with its data and its
two children. -/
inductive Node (α : Type) where
  | null : Node α
  | node (data : α) (left right : Node α) : Node α
  deriving DecidableEq, Repr

/-- The class `BinTree`: its only field is the root pointer. -/
structure BinTree (α : Type) where
  root : Node α
  deriving DecidableEq, Repr

namespace Node

variable {α : Type}

/-- The elements of a tree by inorder traversal: left subtree, node, right subtree. -/
def inorder : Node α → List α
  | null => []
  | node data left right => inorder left ++ data :: inorder right

/-- Number of nodes. -/
def size : Node α → Nat
  | null => 0
  | node _ left right => size left + 1 + size right

/-- Number of nodes on the longest path from the root down to a leaf. -/
def height : Node α → Nat
  | null => 0
  | node _ left right => 1 + max (height left) (height right)

/-- The element stored at a position, the position being the list of turns taken from
the root (`false` = left child, `true` = right child). -/
def elemAt : Node α → List Bool → Option α
  | null, _ => none
  | node data _ _, [] => some data
  | node _ left _, false :: p => elemAt left p
  | node _ _ right, true :: p => elemAt right p

/-- The search-order invariant: at every node, the left subtree holds only strictly
smaller elements and the right subtree only strictly greater ones. -/
def SearchOrder [LinearOrder α] : Node α → Prop
  | null => True
  | node data left right =>
    (∀ x ∈ inorder left, x < data) ∧ (∀ x ∈ inorder right, data < x) ∧
      SearchOrder left ∧ SearchOrder right

instance decidableSearchOrder [LinearOrder α] : (t : Node α) → Decidable (SearchOrder t)
  | null => isTrue trivial
  | node data left right =>
    have := decidableSearchOrder left
    have := decidableSearchOrder right
    inferInstanceAs (Decidable ((∀ x ∈ inorder left, x < data) ∧
      (∀ x ∈ inorder right, data < x) ∧ SearchOrder left ∧ SearchOrder right))

/-- The tree `new` is the tree `old` with one NULL child pointer (or the NULL root)
replaced by a leaf holding `x`, everything else as it was. -/
inductive AddLeaf (x : α) : Node α → Node α → Prop where
  | here : AddLeaf x null (node x null null)
  | left {data : α} {l l2 : Node α} (r : Node α) :
      AddLeaf x l l2 → AddLeaf x (node data l r) (node data l2 r)
  | right {data : α} (l : Node α) {r r2 : Node α} :
      AddLeaf x r r2 → AddLeaf x (node data l r) (node data l r2)

/-- Insertion read as a function on trees: a leaf for `x` at the place where the descent
by comparisons ends, the tree itself when the descent meets `x`.  (`BinTree.insert` is
proved to compute it.) -/
def ins [LinearOrder α] (x : α) : Node α → Node α
  | null => node x null null
  | node data left right =>
    if x = data then node data left right
    else if x < data then node data (ins x left) right
    else node data left (ins x right)

/-- The descent by comparisons meets `x`.  (`BinTree.retrieve` is proved to compute
it.) -/
def contains [LinearOrder α] (x : α) : Node α → Bool
  | null => false
  | node data left right =>
    if x = data then true
    else if x < data then contains x left
    else contains x right

end Node

namespace BinTree

open Node

variable {α : Type} [LinearOrder α]

/-- The default constructor `BinTree::BinTree()`: `root = NULL`. -/
def empty : BinTree α := ⟨null⟩

/-- The method `BinTree::isEmpty`: `root == NULL`. -/
def isEmpty (t : BinTree α) : Bool :=
  match t.root with
  | null => true
  | node _ _ _ => false

/-- The method `BinTree::makeEmptyHelper`: releases the left subtree, the right subtree,
the data and the node; the result is the new value of `rootPtr`, always NULL. -/
def makeEmptyHelper : Node α → Node α
  | null => null
  | node _ left right =>
    let _left := makeEmptyHelper left
    let _right := makeEmptyHelper right
    null

/-- The method `BinTree::makeEmpty`. -/
def makeEmpty (t : BinTree α) : BinTree α :=
  if !t.isEmpty then
    let _released := makeEmptyHelper t.root
    { root := null }
  else t

/-- The method `BinTree::copyHelper`: the result is the new value of `thisRoot`. -/
def copyHelper : Node α → Node α
  | node data left right => node data (copyHelper left) (copyHelper right)
  | null => null

/-- The copy constructor `BinTree::BinTree(const BinTree&)`. -/
def copy (other : BinTree α) : BinTree α := ⟨copyHelper other.root⟩

/-- The operator `BinTree::operator=` between two distinct objects (on `this == &other`
the source does nothing): the old nodes are released, then `other` is copied. -/
def assign (this other : BinTree α) : BinTree α :=
  let _released := makeEmptyHelper this.root
  ⟨copyHelper other.root⟩

/-- The method `BinTree::equalityHelper`. -/
def equalityHelper : Node α → Node α → Bool
  | node d1 l1 r1, node d2 l2 r2 =>
    if d1 = d2 then equalityHelper r1 r2 && equalityHelper l1 l2 else false
  | null, null => true
  | null, node _ _ _ => false
  | node _ _ _, null => false

/-- The operator `BinTree::operator==`. -/
def eq (this other : BinTree α) : Bool := equalityHelper this.root other.root

/-- The operator `BinTree::operator!=`. -/
def ne (this other : BinTree α) : Bool := !(eq this other)

/-- The method `BinTree::insertHelper`, `temp` being the fresh node that `insert` made
for the value (`temp->data = value`, both children NULL).  The result is the returned
flag and the node at `rootPtr` after the call.  The source calls it on a non-NULL
`rootPtr` only (`insert` and both recursive calls test for NULL first); the `null`
case is there to make the function total. -/
def insertHelper : Node α → α → Bool × Node α
  | null, _ => (false, null)
  | node data left right, temp =>
    if temp = data then (false, node data left right)
    else if temp < data then
      match left with
      | null => (true, node data (node temp null null) right)
      | node _ _ _ =>
        let res := insertHelper left temp
        (res.1, node data res.2 right)
    else
      match right with
      | null => (true, node data left (node temp null null))
      | node _ _ _ =>
        let res := insertHelper right temp
        (res.1, node data left res.2)

/-- The method `BinTree::insert`, for a non-NULL `value`: the returned flag and the tree
after the call. -/
def insert (t : BinTree α) (value : α) : Bool × BinTree α :=
  match t.root with
  | null => (true, ⟨node value null null⟩)
  | node _ _ _ =>
    let res := insertHelper t.root value
    (res.1, ⟨res.2⟩)

/-- The tree after a sequence of `insert` calls, in order. -/
def insertAll (t : BinTree α) (xs : List α) : BinTree α :=
  xs.foldl (fun acc x => (insert acc x).2) t

/-- The tree of the concrete scenario: 5, 3, 8, 1, 4 inserted in that order into the
empty tree. -/
def sampleTree : BinTree Nat := insertAll empty [5, 3, 8, 1, 4]

/-- The method `BinTree::retrieveHelper`: the returned flag and the value of the reference
parameter `pointer` after the call.  The source calls it on a non-NULL `rootPtr` only
(`retrieve` and both recursive calls test for NULL first); the `null` case is there to
make the function total. -/
def retrieveHelper : Node α → α → Option α → Bool × Option α
  | null, _, pointer => (false, pointer)
  | node data left right, value, pointer =>
    if value = data then (true, some data)
    else if value < data then
      match left with
      | node _ _ _ => retrieveHelper left value pointer
      | null => (false, pointer)
    else
      match right with
      | node _ _ _ => retrieveHelper right value pointer
      | null => (false, pointer)

/-- The method `BinTree::retrieve`. -/
def retrieve (t : BinTree α) (value : α) (pointer : Option α) : Bool × Option α :=
  match t.root with
  | null => (false, pointer)
  | node _ _ _ => retrieveHelper t.root value pointer

/-- The method `BinTree::getDepthHelper`. -/
def getDepthHelper (value : α) : Node α → Int
  | null => 0
  | node data left right =>
    if data = value then 1
    else
      let leftDepth := getDepthHelper value left
      let rightDepth := getDepthHelper value right
      if leftDepth = 0 ∧ rightDepth = 0 then 0
      else 1 + (if leftDepth > rightDepth then leftDepth else rightDepth)

/-- The method `BinTree::getDepth`. -/
def getDepth (t : BinTree α) (value : α) : Int := getDepthHelper value t.root

/-- The method `BinTree::bstreeToArrayHelper`: the array and the value of the reference
parameter `index` after the call.  The source calls it on a non-NULL `rootPtr` only; on
NULL, and on a write outside the array, the result is `none`.  (The source also sets
`rootPtr->data = NULL` in every node it visits; `bstreeToArray` releases all those nodes
right after, so the nodes are not rebuilt here.) -/
def bstreeToArrayHelper :
    List (Option α) → Node α → Nat → Option (List (Option α) × Nat)
  | _, null, _ => none
  | array, node data left right, index =>
    let afterLeft :=
      match left with
      | node _ _ _ => bstreeToArrayHelper array left index
      | null => some (array, index)
    match afterLeft with
    | none => none
    | some (array1, index1) =>
      if index1 < array1.length then
        let array2 := array1.set index1 (some data)
        let index2 := index1 + 1
        match right with
        | node _ _ _ => bstreeToArrayHelper array2 right index2
        | null => some (array2, index2)
      else none

/-- The method `BinTree::bstreeToArray`: the array and the tree after the call. -/
def bstreeToArray (t : BinTree α) (array : List (Option α)) :
    Option (List (Option α) × BinTree α) :=
  match t.root with
  | node _ _ _ =>
    let index := 0
    match bstreeToArrayHelper array t.root index with
    | none => none
    | some (array1, _) => some (array1, makeEmpty t)
  | null => some (array, t)

/-- The counting loop of `BinTree::arrayToBSTree`: `for (;;)` that stops at the first
NULL slot.  The first argument is the part of the array from index `size` on; the result
is the final `size`, or `none` when the loop runs off the end of the array. -/
def arrayToBSTreeSize : List (Option α) → Nat → Option Nat
  | [], _ => none
  | none :: _, size => some size
  | some _ :: rest, size => arrayToBSTreeSize rest (size + 1)

/-- The order in which `arrayToBSTreeHelper` hands the entries of a range to `insert`:
the entry at the midpoint `(low + high) / 2`, then those of the upper sub-range, then
those of the lower sub-range, each in that same order. -/
def midOrder {α : Type} (xs : List α) : List α :=
  match h : xs.drop ((xs.length - 1) / 2) with
  | [] => []
  | value :: upper => value :: (midOrder upper ++ midOrder (xs.take ((xs.length - 1) / 2)))
termination_by xs.length
decreasing_by
  · have hlen := congrArg List.length h
    simp only [List.length_drop, List.length_cons] at hlen
    omega
  · have hlen := congrArg List.length h
    simp only [List.length_drop, List.length_cons] at hlen
    simp only [List.length_take]
    omega

/-- The tree with the entry at the midpoint of a range at the root, the tree of the lower
sub-range on the left and the tree of the upper sub-range on the right. -/
def build {α : Type} (xs : List α) : Node α :=
  match h : xs.drop ((xs.length - 1) / 2) with
  | [] => null
  | value :: upper => node value (build (xs.take ((xs.length - 1) / 2))) (build upper)
termination_by xs.length
decreasing_by
  · have hlen := congrArg List.length h
    simp only [List.length_drop, List.length_cons] at hlen
    simp only [List.length_take]
    omega
  · have hlen := congrArg List.length h
    simp only [List.length_drop, List.length_cons] at hlen
    omega

/-- The method `BinTree::arrayToBSTreeHelper`: the array and the tree after the call.
The result is `none` when an index falls outside the array or when the slot at the
midpoint is NULL (the source would hand a NULL `value` to `insert`). -/
def arrayToBSTreeHelper (t : BinTree α) (array : List (Option α)) (low high : Int) :
    Option (List (Option α) × BinTree α) :=
  if h : low ≤ high then
    let rootIndex := (low + high).tdiv 2
    if rootIndex < 0 then none
    else
      match array[rootIndex.toNat]? with
      | none => none
      | some none => none
      | some (some value) =>
        let t1 := (insert t value).2
        let array1 := array.set rootIndex.toNat none
        match arrayToBSTreeHelper t1 array1 (rootIndex + 1) high with
        | none => none
        | some (array2, t2) => arrayToBSTreeHelper t2 array2 low (rootIndex - 1)
  else some (array, t)
termination_by (high + 1 - low).toNat
decreasing_by
  all_goals
    have hmid : low ≤ (low + high).tdiv 2 ∧ (low + high).tdiv 2 ≤ high := by
      rcases le_or_lt 0 (low + high) with hs | hs
      · rw [Int.tdiv_eq_ediv hs (by decide)]
        omega
      · have h1 : (low + high).tdiv 2 = -((-(low + high)).tdiv 2) := by
          rw [Int.neg_tdiv, neg_neg]
        rw [h1, Int.tdiv_eq_ediv (by omega) (by decide)]
        omega
    omega

/-- The method `BinTree::arrayToBSTree`: the array and the tree after the call. -/
def arrayToBSTree (t : BinTree α) (array : List (Option α)) :
    Option (List (Option α) × BinTree α) :=
  match arrayToBSTreeSize array 0 with
  | none => none
  | some size => arrayToBSTreeHelper t array 0 ((size : Int) - 1)

/-- The method `BinTree::inorderHelper`: the text of the stream after the call, `disp`
being the `operator<<` of `NodeData`.  The source calls it on a non-NULL `rootPtr` only;
the `null` case is there to make the function total. -/
def inorderHelper (disp : α → String) : String → Node α → String
  | output, null => output
  | output, node data left right =>
    let output1 :=
      match left with
      | node _ _ _ => inorderHelper disp output left
      | null => output
    let output2 := output1 ++ disp data ++ " "
    match right with
    | node _ _ _ => inorderHelper disp output2 right
    | null => output2

/-- The `operator<<` of `BinTree`: the text of the stream after the call. -/
def print (disp : α → String) (output : String) (tree : BinTree α) : String :=
  let output1 := if !tree.isEmpty then inorderHelper disp output tree.root else output
  output1 ++ "\n"

/-- The indentation loop of `BinTree::sideways`: `for (int i = level; i >= 0; i--)`. -/
def sidewaysIndent (output : String) (i : Int) : String :=
  if 0 ≤ i then sidewaysIndent (output ++ "    ") (i - 1) else output
termination_by (i + 1).toNat
decreasing_by omega

/-- The method `BinTree::sideways`: the text of standard output after the call. -/
def sideways (disp : α → String) : String → Node α → Int → String
  | output, null, _ => output
  | output, node data left right, level =>
    let level1 := level + 1
    let output1 := sideways disp output right level1
    let output2 := sidewaysIndent output1 level1
    let output3 := output2 ++ disp data ++ "\n"
    sideways disp output3 left level1

/-- The method `BinTree::displaySideways`. -/
def displaySideways (disp : α → String) (output : String) (t : BinTree α) : String :=
  sideways disp output t.root 0

/-- The depth search that the ordering of the tree would allow, in the words of the
specification: 0 at an empty subtree, 1 at a node equal to the query; otherwise the
search goes on in the left subtree only when the query is less than the node and in the
right subtree only when it is not, and 1 is added to a non-zero result. -/
def getDepthGuided (value : α) : Node α → Int
  | null => 0
  | node data left right =>
    if data = value then 1
    else
      let depth :=
        if value < data then getDepthGuided value left else getDepthGuided value right
      if depth = 0 then 0 else 1 + depth

/-- The variant of `arrayToBSTreeHelper` that the specification allows: the same steps,
with the recursion on the lower sub-range before the one on the upper sub-range. -/
def arrayToBSTreeHelperLowerFirst (t : BinTree α) (array : List (Option α))
    (low high : Int) : Option (List (Option α) × BinTree α) :=
  if h : low ≤ high then
    let rootIndex := (low + high).tdiv 2
    if rootIndex < 0 then none
    else
      match array[rootIndex.toNat]? with
      | none => none
      | some none => none
      | some (some value) =>
        let t1 := (insert t value).2
        let array1 := array.set rootIndex.toNat none
        match arrayToBSTreeHelperLowerFirst t1 array1 low (rootIndex - 1) with
        | none => none
        | some (array2, t2) => arrayToBSTreeHelperLowerFirst t2 array2 (rootIndex + 1) high
  else some (array, t)
termination_by (high + 1 - low).toNat
decreasing_by
  all_goals
    have hmid : low ≤ (low + high).tdiv 2 ∧ (low + high).tdiv 2 ≤ high := by
      rcases le_or_lt 0 (low + high) with hs | hs
      · rw [Int.tdiv_eq_ediv hs (by decide)]
        omega
      · have h1 : (low + high).tdiv 2 = -((-(low + high)).tdiv 2) := by
          rw [Int.neg_tdiv, neg_neg]
        rw [h1, Int.tdiv_eq_ediv (by omega) (by decide)]
        omega
    omega

/-- The order in which `arrayToBSTreeHelperLowerFirst` hands the entries of a range to
`insert`: the midpoint, then the lower sub-range, then the upper sub-range. -/
def midOrderLowerFirst {α : Type} (xs : List α) : List α :=
  match h : xs.drop ((xs.length - 1) / 2) with
  | [] => []
  | value :: upper =>
    value :: (midOrderLowerFirst (xs.take ((xs.length - 1) / 2)) ++ midOrderLowerFirst upper)
termination_by xs.length
decreasing_by
  · have hlen := congrArg List.length h
    simp only [List.length_drop, List.length_cons] at hlen
    simp only [List.length_take]
    omega
  · have hlen := congrArg List.length h
    simp only [List.length_drop, List.length_cons] at hlen
    omega

/-- The nodes of a tree in the order in which `sideways` visits them (right subtree,
node, left subtree), each with its depth, `depth` being the depth of the root. -/
def sidewaysEntries {α : Type} : Node α → Nat → List (Nat × α)
  | null, _ => []
  | node data left right, depth =>
    sidewaysEntries right (depth + 1) ++ (depth, data) :: sidewaysEntries left (depth + 1)

/-- A text of `n` spaces. -/
def spaces (n : Nat) : String := ⟨List.replicate n ' '⟩

end BinTree

/-! ## Proofs -/

namespace Node

section Shape

variable {α : Type}

theorem AddLeaf.size_eq {x : α} {s t : Node α} (h : AddLeaf x s t) : size t = size s + 1 := by
  induction h with
  | here => simp [size]
  | left r _ ih => simp only [size, ih]; omega
  | right l _ ih => simp only [size, ih]; omega

theorem AddLeaf.elemAt_eq {x : α} {s t : Node α} (h : AddLeaf x s t) (p : List Bool) (e : α)
    (he : elemAt s p = some e) : elemAt t p = some e := by
  induction h generalizing p with
  | here => simp [elemAt] at he
  | left r _ ih =>
    match p with
    | [] => simpa [elemAt] using he
    | false :: p => exact ih p (by simpa [elemAt] using he)
    | true :: p => simpa [elemAt] using he
  | right l _ ih =>
    match p with
    | [] => simpa [elemAt] using he
    | false :: p => simpa [elemAt] using he
    | true :: p => exact ih p (by simpa [elemAt] using he)

theorem AddLeaf.perm {x : α} {s t : Node α} (h : AddLeaf x s t) :
    (inorder t).Perm (x :: inorder s) := by
  induction h with
  | here => simp [inorder]
  | left r _ ih =>
    simp only [inorder]
    exact (List.Perm.append_right _ ih)
  | right l _ ih =>
    rename_i data r1 r2 _
    simp only [inorder]
    have h1 : (inorder l ++ data :: inorder r2).Perm (inorder l ++ data :: x :: inorder r1) :=
      List.Perm.append_left _ (List.Perm.cons _ ih)
    refine h1.trans ?_
    have h2 : (inorder l ++ data :: x :: inorder r1).Perm (inorder l ++ x :: data :: inorder r1) :=
      List.Perm.append_left _ (List.Perm.swap _ _ _)
    exact h2.trans List.perm_middle

end Shape

variable {α : Type} [LinearOrder α]

theorem mem_inorder_ins (x y : α) (t : Node α) :
    y ∈ inorder (ins x t) ↔ y = x ∨ y ∈ inorder t := by
  induction t with
  | null => simp [ins, inorder]
  | node data left right ihl ihr =>
    simp only [ins]
    split_ifs with h1 h2
    · subst h1
      simp only [inorder, List.mem_append, List.mem_cons]
      tauto
    · simp only [inorder, List.mem_append, List.mem_cons, ihl]
      tauto
    · simp only [inorder, List.mem_append, List.mem_cons, ihr]
      tauto

theorem searchOrder_ins (x : α) (t : Node α) (h : SearchOrder t) : SearchOrder (ins x t) := by
  induction t with
  | null => simp [ins, SearchOrder, inorder]
  | node data left right ihl ihr =>
    obtain ⟨hl, hr, sl, sr⟩ := h
    simp only [ins]
    split_ifs with h1 h2
    · exact ⟨hl, hr, sl, sr⟩
    · refine ⟨?_, hr, ihl sl, sr⟩
      intro y hy
      rcases (mem_inorder_ins x y left).1 hy with rfl | hy
      · exact h2
      · exact hl y hy
    · refine ⟨hl, ?_, sl, ihr sr⟩
      intro y hy
      rcases (mem_inorder_ins x y right).1 hy with rfl | hy
      · exact lt_of_le_of_ne (not_lt.1 h2) (Ne.symm h1)
      · exact hr y hy

theorem contains_of_mem (x : α) (t : Node α) (h : SearchOrder t) (hx : x ∈ inorder t) :
    contains x t = true := by
  induction t with
  | null => simp [inorder] at hx
  | node data left right ihl ihr =>
    obtain ⟨hl, hr, sl, sr⟩ := h
    simp only [contains]
    split_ifs with h1 h2
    · rfl
    · simp only [inorder, List.mem_append, List.mem_cons] at hx
      rcases hx with hx | hx | hx
      · exact ihl sl hx
      · exact absurd hx h1
      · exact absurd (hr x hx) (not_lt.2 h2.le)
    · simp only [inorder, List.mem_append, List.mem_cons] at hx
      rcases hx with hx | hx | hx
      · exact absurd (hl x hx) h2
      · exact absurd hx h1
      · exact ihr sr hx

theorem mem_of_contains (x : α) (t : Node α) (h : contains x t = true) : x ∈ inorder t := by
  induction t with
  | null => simp [contains] at h
  | node data left right ihl ihr =>
    simp only [contains] at h
    simp only [inorder, List.mem_append, List.mem_cons]
    split_ifs at h with h1 h2
    · exact Or.inr (Or.inl h1)
    · exact Or.inl (ihl h)
    · exact Or.inr (Or.inr (ihr h))

theorem contains_iff_mem (x : α) (t : Node α) (h : SearchOrder t) :
    contains x t = true ↔ x ∈ inorder t :=
  ⟨mem_of_contains x t, contains_of_mem x t h⟩

theorem ins_of_contains (x : α) (t : Node α) (h : contains x t = true) : ins x t = t := by
  induction t with
  | null => simp [contains] at h
  | node data left right ihl ihr =>
    simp only [contains] at h
    simp only [ins]
    split_ifs at h ⊢ with h1 h2
    · rfl
    · rw [ihl h]
    · rw [ihr h]

theorem addLeaf_ins (x : α) (t : Node α) (h : contains x t = false) :
    AddLeaf x t (ins x t) := by
  induction t with
  | null => exact AddLeaf.here
  | node data left right ihl ihr =>
    simp only [contains] at h
    simp only [ins]
    split_ifs at h ⊢ with h1 h2
    · exact AddLeaf.left right (ihl h)
    · exact AddLeaf.right left (ihr h)

theorem sorted_inorder (t : Node α) (h : SearchOrder t) : (inorder t).Sorted (· < ·) := by
  induction t with
  | null => simp [inorder]
  | node data left right ihl ihr =>
    obtain ⟨hl, hr, sl, sr⟩ := h
    simp only [inorder, List.Sorted, List.pairwise_append, List.pairwise_cons, List.mem_cons]
    refine ⟨ihl sl, ⟨hr, ihr sr⟩, ?_⟩
    intro a ha b hb
    rcases hb with rfl | hb
    · exact hl a ha
    · exact lt_trans (hl a ha) (hr b hb)

end Node

namespace BinTree

open Node

variable {α : Type} [LinearOrder α]

theorem insertHelper_eq (x : α) (t : Node α) (ht : t ≠ null) :
    insertHelper t x = (!contains x t, ins x t) := by
  induction t with
  | null => exact absurd rfl ht
  | node data left right ihl ihr =>
    rw [insertHelper.eq_def]
    by_cases h1 : x = data
    · simp [contains, ins, h1]
    · by_cases h2 : x < data
      · cases left with
        | null => simp [contains, ins, h1, h2]
        | node d l r =>
          simp only [h1, h2, if_false, if_true]
          rw [ihl (by simp)]
          simp [contains, ins, h1, h2]
      · cases right with
        | null => simp [contains, ins, h1, h2]
        | node d l r =>
          simp only [h1, h2, if_false, if_true]
          rw [ihr (by simp)]
          simp [contains, ins, h1, h2]

theorem insert_eq (t : BinTree α) (x : α) :
    insert t x = (!contains x t.root, ⟨ins x t.root⟩) := by
  obtain ⟨root⟩ := t
  cases root with
  | null => simp [insert, contains, ins]
  | node d l r =>
    simp only [insert]
    rw [insertHelper_eq x _ (by simp)]

theorem insertAll_root (t : BinTree α) (xs : List α) :
    (insertAll t xs).root = xs.foldl (fun n x => ins x n) t.root := by
  induction xs generalizing t with
  | nil => rfl
  | cons x xs ih =>
    simp only [insertAll, List.foldl_cons] at ih ⊢
    rw [ih, insert_eq]

end BinTree

namespace Node

variable {α : Type} [LinearOrder α]

theorem contains_eq_false_of_not_mem (x : α) (t : Node α) (h : x ∉ inorder t) :
    contains x t = false := by
  cases hc : contains x t with
  | false => rfl
  | true => exact absurd (mem_of_contains x t hc) h

theorem searchOrder_foldl_ins (xs : List α) (t : Node α) (h : SearchOrder t) :
    SearchOrder (xs.foldl (fun n x => ins x n) t) := by
  induction xs generalizing t with
  | nil => exact h
  | cons x xs ih => exact ih _ (searchOrder_ins x t h)

theorem mem_foldl_ins (xs : List α) (t : Node α) (y : α) :
    y ∈ inorder (xs.foldl (fun n x => ins x n) t) ↔ y ∈ inorder t ∨ y ∈ xs := by
  induction xs generalizing t with
  | nil => simp
  | cons x xs ih =>
    simp only [List.foldl_cons, ih, mem_inorder_ins, List.mem_cons]
    tauto

theorem perm_foldl_ins (xs : List α) (t : Node α) (hxs : xs.Nodup)
    (hdis : ∀ x ∈ xs, x ∉ inorder t) :
    (inorder (xs.foldl (fun n x => ins x n) t)).Perm (inorder t ++ xs) := by
  induction xs generalizing t with
  | nil => simp
  | cons x xs ih =>
    rw [List.nodup_cons] at hxs
    have hx : contains x t = false :=
      contains_eq_false_of_not_mem x t (hdis x (List.mem_cons_self _ _))
    have hp := (addLeaf_ins x t hx).perm
    have hdis2 : ∀ y ∈ xs, y ∉ inorder (ins x t) := by
      intro y hy hmem
      rcases (mem_inorder_ins x y t).1 hmem with rfl | hmem
      · exact hxs.1 hy
      · exact hdis y (List.mem_cons_of_mem _ hy) hmem
    refine (ih (ins x t) hxs.2 hdis2).trans ?_
    refine (List.Perm.append_right xs hp).trans ?_
    simp only [List.cons_append]
    exact List.perm_middle.symm

end Node

namespace BinTree

open Node

section Print

variable {α : Type}

theorem inorderHelper_eq (disp : α → String) (output : String) (t : Node α) :
    inorderHelper disp output t =
      (inorder t).foldl (fun out x => out ++ disp x ++ " ") output := by
  induction t generalizing output with
  | null => rfl
  | node data left right ihl ihr =>
    rw [inorderHelper.eq_def]
    simp only [inorder, List.foldl_append, List.foldl_cons]
    cases left with
    | null =>
      cases right with
      | null => rfl
      | node d l r => exact ihr _
    | node d1 l1 r1 =>
      cases right with
      | null => simp only [ihl, inorder, List.foldl_nil]
      | node d l r => simp only [ihl, ihr]

theorem print_eq (disp : α → String) (output : String) (tree : BinTree α) :
    print disp output tree =
      (inorder tree.root).foldl (fun out x => out ++ disp x ++ " ") output ++ "\n" := by
  obtain ⟨root⟩ := tree
  cases root with
  | null => rfl
  | node d l r => simp only [print, isEmpty, inorderHelper_eq, Bool.not_false, if_true]

end Print

end BinTree

namespace BinTree

open Node

variable {α : Type} [LinearOrder α]

theorem equalityHelper_iff (a b : Node α) : equalityHelper a b = true ↔ a = b := by
  induction a generalizing b with
  | null => cases b <;> simp [equalityHelper]
  | node d l r ihl ihr =>
    cases b with
    | null => simp [equalityHelper]
    | node d2 l2 r2 =>
      simp only [equalityHelper]
      split_ifs with h
      · simp [ihl, ihr, h]
        tauto
      · simp [h]

theorem searchOrder_insertAll (t : BinTree α) (xs : List α) (h : SearchOrder t.root) :
    SearchOrder (insertAll t xs).root := by
  rw [insertAll_root]
  exact searchOrder_foldl_ins xs t.root h

/-- C1: `insert` keeps the search-order invariant, whatever it returns; the empty tree
has it; so every tree made from the empty tree by `insert` calls has it, and holds no
two equal elements. -/
theorem insert_preserves_searchOrder (t : BinTree α) (x : α) (h : SearchOrder t.root) :
    SearchOrder (insert t x).2.root ∧
    SearchOrder (empty : BinTree α).root ∧
    ∀ xs : List α, SearchOrder (insertAll empty xs).root ∧
      (inorder (insertAll empty xs).root).Nodup := by
  refine ⟨?_, trivial, ?_⟩
  · rw [insert_eq]
    exact searchOrder_ins x t.root h
  · intro xs
    have hs : SearchOrder (insertAll (empty : BinTree α) xs).root :=
      searchOrder_insertAll empty xs trivial
    exact ⟨hs, (sorted_inorder _ hs).nodup⟩

theorem insert_preserves_searchOrder_witness :
    SearchOrder sampleTree.root ∧ SearchOrder (insert sampleTree 7).2.root :=
  ⟨by decide, (insert_preserves_searchOrder sampleTree 7 (by decide)).1⟩

/-- C2: for pairwise distinct `xs`, the inorder traversal of the tree made from the empty
tree by inserting `xs` in order is strictly ascending, has exactly the elements of `xs`,
and is the ascending sort of `xs`; it is the order in which `operator<<` (through
`inorderHelper`) writes the elements. -/
theorem inorder_insertAll_sorted (xs : List α) (hxs : xs.Nodup) :
    (inorder (insertAll empty xs).root).Sorted (· < ·) ∧
    (inorder (insertAll empty xs).root).Perm xs ∧
    inorder (insertAll empty xs).root = xs.insertionSort (· ≤ ·) ∧
    ∀ (disp : α → String) (output : String),
      print disp output (insertAll empty xs) =
        (xs.insertionSort (· ≤ ·)).foldl (fun out x => out ++ disp x ++ " ") output ++
          "\n" := by
  have hs : SearchOrder (insertAll (empty : BinTree α) xs).root :=
    searchOrder_insertAll empty xs trivial
  have hsorted := sorted_inorder _ hs
  have hperm : (inorder (insertAll (empty : BinTree α) xs).root).Perm xs := by
    rw [insertAll_root]
    have := perm_foldl_ins xs (empty : BinTree α).root hxs (by simp [empty, inorder])
    simpa [empty, inorder] using this
  have heq : inorder (insertAll (empty : BinTree α) xs).root = xs.insertionSort (· ≤ ·) :=
    List.eq_of_perm_of_sorted (hperm.trans (List.perm_insertionSort _ xs).symm)
      hsorted.le_of_lt (List.sorted_insertionSort _ xs)
  refine ⟨hsorted, hperm, heq, ?_⟩
  intro disp output
  rw [print_eq, heq]

theorem inorder_insertAll_sorted_witness :
    [5, 3, 8, 1, 4].Nodup ∧
    inorder (insertAll empty [5, 3, 8, 1, 4]).root = [1, 3, 4, 5, 8] :=
  ⟨by decide, (inorder_insertAll_sorted [5, 3, 8, 1, 4] (by decide)).2.2.1.trans (by decide)⟩

/-- C3: on a tree with the search-order invariant, `insert` of an element equal to a
stored one returns false and leaves the tree as it was: the same tree, equal under
`operator==`. -/
theorem insert_duplicate_rejected (t : BinTree α) (x : α) (h : SearchOrder t.root)
    (hx : x ∈ inorder t.root) :
    (insert t x).1 = false ∧ (insert t x).2 = t ∧ eq (insert t x).2 t = true := by
  have hc : contains x t.root = true := contains_of_mem x t.root h hx
  have h2 : (insert t x).2 = t := by
    rw [insert_eq]
    simp only [ins_of_contains x t.root hc]
  refine ⟨by rw [insert_eq]; simp [hc], h2, ?_⟩
  rw [h2]
  exact (equalityHelper_iff _ _).2 rfl

theorem insert_duplicate_rejected_witness :
    SearchOrder sampleTree.root ∧ 4 ∈ inorder sampleTree.root ∧
      (insert sampleTree 4).1 = false ∧ (insert sampleTree 4).2 = sampleTree :=
  ⟨by decide, by decide,
    (insert_duplicate_rejected sampleTree 4 (by decide) (by decide)).1,
    (insert_duplicate_rejected sampleTree 4 (by decide) (by decide)).2.1⟩

/-- C4: `insert` of an element equal to no stored one returns true; the new tree is the
old one with one NULL child pointer (or the NULL root) replaced by a leaf holding the
element; it has one node more, and every stored element is still at its position.  On
the empty tree the element becomes the root, alone. -/
theorem insert_adds_one_leaf (t : BinTree α) (x : α) (hx : x ∉ inorder t.root) :
    (insert t x).1 = true ∧
    AddLeaf x t.root (insert t x).2.root ∧
    size (insert t x).2.root = size t.root + 1 ∧
    (∀ (p : List Bool) (e : α), elemAt t.root p = some e →
      elemAt (insert t x).2.root p = some e) ∧
    (t.isEmpty = true → (insert t x).2 = ⟨node x null null⟩) := by
  have hc : contains x t.root = false := contains_eq_false_of_not_mem x t.root hx
  have hadd : AddLeaf x t.root (insert t x).2.root := by
    rw [insert_eq]
    exact addLeaf_ins x t.root hc
  refine ⟨by rw [insert_eq]; simp [hc], hadd, hadd.size_eq, hadd.elemAt_eq, ?_⟩
  intro he
  obtain ⟨root⟩ := t
  cases root with
  | null => rfl
  | node d l r => simp [isEmpty] at he

theorem insert_adds_one_leaf_witness :
    7 ∉ inorder sampleTree.root ∧ (insert sampleTree 7).1 = true ∧
      size (insert sampleTree 7).2.root = size sampleTree.root + 1 :=
  ⟨by decide, (insert_adds_one_leaf sampleTree 7 (by decide)).1,
    (insert_adds_one_leaf sampleTree 7 (by decide)).2.2.1⟩

end BinTree

namespace Node

section Count

variable {α : Type}

theorem length_inorder (t : Node α) : (inorder t).length = size t := by
  induction t with
  | null => rfl
  | node data left right ihl ihr =>
    simp only [inorder, size, List.length_append, List.length_cons, ihl, ihr]
    omega

end Count

end Node

namespace BinTree

open Node

section Drain

variable {α : Type}

theorem set_length_append (pre post : List (Option α)) (old new : Option α) :
    (pre ++ old :: post).set pre.length new = pre ++ new :: post := by
  induction pre with
  | nil => rfl
  | cons a pre ih => simp [ih]

theorem bstreeToArrayHelper_eq (t : Node α) (ht : t ≠ null) (pre mid post : List (Option α))
    (hmid : mid.length = size t) :
    bstreeToArrayHelper (pre ++ mid ++ post) t pre.length =
      some (pre ++ (inorder t).map some ++ post, pre.length + size t) := by
  induction t generalizing pre mid post with
  | null => exact absurd rfl ht
  | node data left right ihl ihr =>
    simp only [size] at hmid
    obtain ⟨m1, m, m2, rfl, h1, h2⟩ :
        ∃ m1 m m2, mid = m1 ++ m :: m2 ∧ m1.length = size left ∧ m2.length = size right := by
      have hlt : size left < mid.length := by omega
      refine ⟨mid.take (size left), mid[size left], mid.drop (size left + 1), ?_, ?_, ?_⟩
      · rw [← List.drop_eq_getElem_cons hlt, List.take_append_drop]
      · rw [List.length_take]; omega
      · rw [List.length_drop]; omega
    have hleft :
        (match left with
          | node _ _ _ => bstreeToArrayHelper (pre ++ (m1 ++ m :: m2) ++ post) left pre.length
          | null => some (pre ++ (m1 ++ m :: m2) ++ post, pre.length)) =
        some ((pre ++ (inorder left).map some) ++ m :: (m2 ++ post), pre.length + size left) := by
      cases left with
      | null =>
        simp only [size, List.length_eq_zero] at h1
        simp [h1, inorder, size]
      | node d l r =>
        have := ihl (by simp) pre m1 (m :: (m2 ++ post)) h1
        simp only [List.append_assoc, List.cons_append] at this ⊢
        exact this
    rw [bstreeToArrayHelper.eq_def]
    simp only [hleft]
    have hlen : (pre ++ (inorder left).map some).length = pre.length + size left := by
      simp [length_inorder]
    have hlt : pre.length + size left <
        ((pre ++ (inorder left).map some) ++ m :: (m2 ++ post)).length := by
      rw [List.length_append, hlen]; simp
    rw [if_pos hlt, ← hlen, set_length_append]
    cases right with
    | null =>
      simp only [size, List.length_eq_zero] at h2
      simp [h2, inorder, size, length_inorder]
      omega
    | node d l r =>
      have := ihr (by simp) (pre ++ (inorder left).map some ++ [some data]) m2 post h2
      have e1 : (pre ++ (inorder left).map some ++ [some data]) ++ m2 ++ post =
          (pre ++ (inorder left).map some) ++ some data :: (m2 ++ post) := by simp
      have e2 : (pre ++ (inorder left).map some ++ [some data]).length =
          (pre ++ (inorder left).map some).length + 1 := by
        simp only [List.length_append, List.length_cons, List.length_nil]
      rw [e1, e2] at this
      simp only []
      rw [this]
      simp only [inorder, size, List.map_append, List.map_cons, List.append_assoc,
        List.cons_append, List.nil_append, List.length_append, List.length_map,
        List.length_cons, List.length_nil, length_inorder, Option.some.injEq, Prod.mk.injEq,
        true_and]
      omega

theorem bstreeToArray_eq (t : BinTree α) (array : List (Option α))
    (hcap : size t.root ≤ array.length) :
    bstreeToArray t array =
      some ((inorder t.root).map some ++ array.drop (size t.root), ⟨null⟩) := by
  obtain ⟨root⟩ := t
  cases root with
  | null => simp [bstreeToArray, inorder, size]
  | node d l r =>
    have h := bstreeToArrayHelper_eq (node d l r) (by simp) []
      (array.take (size (node d l r))) (array.drop (size (node d l r)))
      (by rw [List.length_take]; exact min_eq_left hcap)
    simp only [List.nil_append, List.take_append_drop, List.length_nil] at h
    simp only [bstreeToArray, h, makeEmpty, isEmpty]
    simp

theorem bstreeToArray_root (t t2 : BinTree α) (array array2 : List (Option α))
    (h : bstreeToArray t array = some (array2, t2)) : t2.root = null := by
  obtain ⟨root⟩ := t
  cases root with
  | null =>
    simp only [bstreeToArray, Option.some.injEq, Prod.mk.injEq] at h
    rw [← h.2]
  | node d l r =>
    simp only [bstreeToArray] at h
    split at h
    · exact absurd h (by simp)
    · simp only [Option.some.injEq, Prod.mk.injEq] at h
      rw [← h.2]
      simp [makeEmpty, isEmpty]

end Drain

end BinTree

namespace Node

section Position

variable {α : Type}

theorem mem_of_elemAt (t : Node α) (p : List Bool) (e : α) (h : elemAt t p = some e) :
    e ∈ inorder t := by
  induction t generalizing p with
  | null => simp [elemAt] at h
  | node data left right ihl ihr =>
    simp only [inorder, List.mem_append, List.mem_cons]
    match p with
    | [] =>
      simp only [elemAt, Option.some.injEq] at h
      exact Or.inr (Or.inl h.symm)
    | false :: p => exact Or.inl (ihl p (by simpa [elemAt] using h))
    | true :: p => exact Or.inr (Or.inr (ihr p (by simpa [elemAt] using h)))

theorem exists_elemAt_of_mem (t : Node α) (e : α) (h : e ∈ inorder t) :
    ∃ p, elemAt t p = some e := by
  induction t with
  | null => simp [inorder] at h
  | node data left right ihl ihr =>
    simp only [inorder, List.mem_append, List.mem_cons] at h
    rcases h with h | h | h
    · obtain ⟨p, hp⟩ := ihl h
      exact ⟨false :: p, by simpa [elemAt] using hp⟩
    · exact ⟨[], by simp [elemAt, h]⟩
    · obtain ⟨p, hp⟩ := ihr h
      exact ⟨true :: p, by simpa [elemAt] using hp⟩

theorem elemAt_ext (a b : Node α) (h : ∀ p, elemAt a p = elemAt b p) : a = b := by
  induction a generalizing b with
  | null =>
    cases b with
    | null => rfl
    | node d l r => simpa [elemAt] using h []
  | node data left right ihl ihr =>
    cases b with
    | null => simpa [elemAt] using h []
    | node d l r =>
      have h0 : data = d := by simpa [elemAt] using h []
      have hl : left = l := ihl l (fun p => by simpa [elemAt] using h (false :: p))
      have hr : right = r := ihr r (fun p => by simpa [elemAt] using h (true :: p))
      rw [h0, hl, hr]

theorem exists_elemAt_height (t : Node α) (ht : t ≠ null) :
    ∃ (p : List Bool) (x : α), elemAt t p = some x ∧ p.length + 1 = height t := by
  induction t with
  | null => exact absurd rfl ht
  | node data left right ihl ihr =>
    rcases le_total (height left) (height right) with hle | hle
    · cases right with
      | null =>
        have h0 : height left = 0 := by simpa [height] using hle
        exact ⟨[], data, rfl, by simp [height, h0]⟩
      | node d l r =>
        obtain ⟨p, x, hp, hlen⟩ := ihr (by simp)
        exact ⟨true :: p, x, by simpa [elemAt] using hp, by
          simp only [List.length_cons, height] at hlen ⊢
          rw [max_eq_right (by simpa [height] using hle)]
          omega⟩
    · cases left with
      | null =>
        have h0 : height right = 0 := by simpa [height] using hle
        exact ⟨[], data, rfl, by simp [height, h0]⟩
      | node d l r =>
        obtain ⟨p, x, hp, hlen⟩ := ihl (by simp)
        exact ⟨false :: p, x, by simpa [elemAt] using hp, by
          simp only [List.length_cons, height] at hlen ⊢
          rw [max_eq_left (by simpa [height] using hle)]
          omega⟩

end Position

end Node

namespace BinTree

open Node

variable {α : Type} [LinearOrder α]

theorem retrieveHelper_eq (q : α) (pointer : Option α) (t : Node α) (ht : t ≠ null) :
    retrieveHelper t q pointer = (contains q t, if contains q t = true then some q else pointer) := by
  induction t with
  | null => exact absurd rfl ht
  | node data left right ihl ihr =>
    rw [retrieveHelper.eq_def]
    by_cases h1 : q = data
    · simp [contains, h1]
    · by_cases h2 : q < data
      · cases left with
        | null => simp [contains, h1, h2]
        | node d l r =>
          simp only [h1, h2, if_false, if_true]
          rw [ihl (by simp)]
          simp [contains, h1, h2]
      · cases right with
        | null => simp [contains, h1, h2]
        | node d l r =>
          simp only [h1, h2, if_false, if_true]
          rw [ihr (by simp)]
          simp [contains, h1, h2]

theorem retrieve_eq (t : BinTree α) (q : α) (pointer : Option α) :
    retrieve t q pointer =
      (contains q t.root, if contains q t.root = true then some q else pointer) := by
  obtain ⟨root⟩ := t
  cases root with
  | null => simp [retrieve, contains]
  | node d l r =>
    simp only [retrieve]
    rw [retrieveHelper_eq q pointer _ (by simp)]

theorem mem_inorder_insertAll (t : BinTree α) (xs : List α) (y : α) :
    y ∈ inorder (insertAll t xs).root ↔ y ∈ inorder t.root ∨ y ∈ xs := by
  rw [insertAll_root]
  exact mem_foldl_ins xs t.root y

theorem getDepthHelper_nonneg (q : α) (t : Node α) : 0 ≤ getDepthHelper q t := by
  induction t with
  | null => simp [getDepthHelper]
  | node data left right ihl ihr =>
    simp only [getDepthHelper]
    split_ifs <;> omega

theorem getDepthHelper_eq_zero_iff (q : α) (t : Node α) :
    getDepthHelper q t = 0 ↔ q ∉ inorder t := by
  induction t with
  | null => simp [getDepthHelper, inorder]
  | node data left right ihl ihr =>
    have hl := getDepthHelper_nonneg q left
    have hr := getDepthHelper_nonneg q right
    simp only [getDepthHelper, inorder, List.mem_append, List.mem_cons, not_or]
    rw [← ihl, ← ihr]
    split_ifs with h1 h2 h3
    · simp [h1]
    · simp [h2.1, h2.2, Ne.symm h1]
    · constructor
      · intro h; omega
      · intro h; exact absurd ⟨h.1, h.2.2⟩ h2
    · constructor
      · intro h; omega
      · intro h; exact absurd ⟨h.1, h.2.2⟩ h2

theorem getDepthHelper_of_elemAt (q : α) (t : Node α) (h : SearchOrder t) (p : List Bool)
    (hp : elemAt t p = some q) : getDepthHelper q t = 1 + (p.length : Int) := by
  induction t generalizing p with
  | null => simp [elemAt] at hp
  | node data left right ihl ihr =>
    obtain ⟨hl, hr, sl, sr⟩ := h
    match p with
    | [] =>
      simp only [elemAt, Option.some.injEq] at hp
      simp [getDepthHelper, hp]
    | false :: p =>
      simp only [elemAt] at hp
      have hq : q < data := hl q (mem_of_elemAt left p q hp)
      have hnr : getDepthHelper q right = 0 :=
        (getDepthHelper_eq_zero_iff q right).2 (fun hm => absurd (hr q hm) (not_lt.2 hq.le))
      have hdl := ihl sl p hp
      simp only [getDepthHelper, hnr, hdl, List.length_cons, Nat.cast_add, Nat.cast_one]
      rw [if_neg (ne_of_gt hq)]
      split_ifs <;> omega
    | true :: p =>
      simp only [elemAt] at hp
      have hq : data < q := hr q (mem_of_elemAt right p q hp)
      have hnl : getDepthHelper q left = 0 :=
        (getDepthHelper_eq_zero_iff q left).2 (fun hm => absurd (hl q hm) (not_lt.2 hq.le))
      have hdr := ihr sr p hp
      simp only [getDepthHelper, hnl, hdr, List.length_cons, Nat.cast_add, Nat.cast_one]
      rw [if_neg (ne_of_lt hq)]
      split_ifs <;> omega

/-- C5: on a tree made from the empty tree by `insert` calls, `retrieve` returns true
exactly for the elements inserted before and then hands back the stored element equal to
the query (and leaves `pointer` alone when it returns false); on the empty tree, and on a
tree that `bstreeToArray` has drained, it returns false. -/
theorem retrieve_membership (xs : List α) (q : α) (pointer : Option α) :
    ((retrieve (insertAll empty xs) q pointer).1 = true ↔ q ∈ xs) ∧
    ((retrieve (insertAll empty xs) q pointer).1 = true →
      ∃ e ∈ inorder (insertAll empty xs).root,
        e = q ∧ (retrieve (insertAll empty xs) q pointer).2 = some e) ∧
    ((retrieve (insertAll empty xs) q pointer).1 = false →
      (retrieve (insertAll empty xs) q pointer).2 = pointer) ∧
    (retrieve empty q pointer).1 = false ∧
    (∀ (t t2 : BinTree α) (array array2 : List (Option α)),
      bstreeToArray t array = some (array2, t2) → (retrieve t2 q pointer).1 = false) := by
  have hs : SearchOrder (insertAll (empty : BinTree α) xs).root :=
    searchOrder_insertAll empty xs trivial
  have hmem : q ∈ inorder (insertAll (empty : BinTree α) xs).root ↔ q ∈ xs := by
    rw [mem_inorder_insertAll]
    simp [empty, inorder]
  refine ⟨?_, ?_, ?_, ?_, ?_⟩
  · rw [retrieve_eq]
    exact (contains_iff_mem q _ hs).trans hmem
  · rw [retrieve_eq]
    intro hc
    have hc2 : contains q (insertAll (empty : BinTree α) xs).root = true := hc
    exact ⟨q, mem_of_contains q _ hc2, rfl, by simp only [hc2, if_true]⟩
  · rw [retrieve_eq]
    intro hc
    have hc2 : contains q (insertAll (empty : BinTree α) xs).root = false := hc
    simp [hc2]
  · rfl
  · intro t t2 array array2 h
    rw [retrieve_eq, bstreeToArray_root t t2 array array2 h]
    rfl

theorem retrieve_membership_witness :
    (retrieve (insertAll empty [5, 3, 8, 1, 4]) 4 none).1 = true ∧
      (retrieve (insertAll empty [5, 3, 8, 1, 4]) 7 none).1 = false :=
  ⟨(retrieve_membership [5, 3, 8, 1, 4] 4 none).1.2 (by decide),
    by
      have h := (retrieve_membership [5, 3, 8, 1, 4] 7 none).1
      cases hr : (retrieve (insertAll empty [5, 3, 8, 1, 4]) 7 none).1 with
      | false => rfl
      | true => exact absurd (h.1 hr) (by decide)⟩

/-- C6: on a tree with the search-order invariant, `getDepth` is 0 exactly for the
elements that are not stored, and for a stored element it is 1 + the number of edges from
the root to its node (every stored element has such a node); in the tree made by
inserting 5, 3, 8, 1, 4 the depths of 5, 3, 8, 1, 4 are 1, 2, 2, 3, 3. -/
theorem getDepth_numbering (t : BinTree α) (q : α) (h : SearchOrder t.root) :
    (getDepth t q = 0 ↔ q ∉ inorder t.root) ∧
    (∀ p : List Bool, elemAt t.root p = some q → getDepth t q = 1 + (p.length : Int)) ∧
    (q ∈ inorder t.root → ∃ p : List Bool, elemAt t.root p = some q) ∧
    [5, 3, 8, 1, 4].map (getDepth (insertAll empty [5, 3, 8, 1, 4])) = [1, 2, 2, 3, 3] :=
  ⟨getDepthHelper_eq_zero_iff q t.root,
    fun p hp => getDepthHelper_of_elemAt q t.root h p hp,
    exists_elemAt_of_mem t.root q, by decide⟩

theorem getDepth_numbering_witness :
    SearchOrder sampleTree.root ∧ elemAt sampleTree.root [false, true] = some 4 ∧
      getDepth sampleTree 4 = 3 :=
  ⟨by decide, by decide,
    (getDepth_numbering sampleTree 4 (by decide)).2.1 [false, true] (by decide)⟩

/-- C10: `operator==` is structural equality.  It returns true exactly when the two
trees are the same tree, that is when they hold the same element, or both nothing, at
every position; two NULL subtrees are equal, a NULL and a non-NULL one are not, two
non-NULL ones are equal exactly when their data are equal, their right subtrees are
equal and their left subtrees are equal; `operator!=` is the negation. -/
theorem eq_structural (a b : BinTree α) :
    (eq a b = true ↔ a = b) ∧
    (eq a b = true ↔ ∀ p : List Bool, elemAt a.root p = elemAt b.root p) ∧
    equalityHelper (null : Node α) null = true ∧
    (∀ (d : α) (l r : Node α), equalityHelper null (node d l r) = false ∧
      equalityHelper (node d l r) null = false) ∧
    (∀ (d1 d2 : α) (l1 r1 l2 r2 : Node α),
      equalityHelper (node d1 l1 r1) (node d2 l2 r2) = true ↔
        d1 = d2 ∧ equalityHelper r1 r2 = true ∧ equalityHelper l1 l2 = true) ∧
    ne a b = !(eq a b) := by
  have h1 : eq a b = true ↔ a = b := by
    obtain ⟨ra⟩ := a
    obtain ⟨rb⟩ := b
    simp only [eq, equalityHelper_iff, BinTree.mk.injEq]
  refine ⟨h1, ?_, rfl, fun d l r => ⟨rfl, rfl⟩, ?_, rfl⟩
  · rw [h1]
    constructor
    · intro h p
      rw [h]
    · intro h
      obtain ⟨ra⟩ := a
      obtain ⟨rb⟩ := b
      rw [elemAt_ext ra rb h]
  · intro d1 d2 l1 r1 l2 r2
    simp only [equalityHelper]
    split_ifs with h
    · simp [h]
    · simp [h]

end BinTree

namespace BinTree

open Node

variable {α : Type} [LinearOrder α]

/-- C7: `bstreeToArray` drains the tree in inorder.  For a tree of `n` nodes with the
search-order invariant and an array of at least `n` slots, the call returns, slots
`0..n-1` of the array then hold the elements of the tree in inorder, which is strictly
ascending, the other slots are as before, and the tree is empty. -/
theorem bstreeToArray_drains (t : BinTree α) (array : List (Option α))
    (h : SearchOrder t.root) (hcap : size t.root ≤ array.length) :
    ∃ (array2 : List (Option α)) (t2 : BinTree α),
      bstreeToArray t array = some (array2, t2) ∧
      array2.length = array.length ∧
      array2.take (size t.root) = (inorder t.root).map some ∧
      (inorder t.root).length = size t.root ∧
      (inorder t.root).Sorted (· < ·) ∧
      array2.drop (size t.root) = array.drop (size t.root) ∧
      t2.isEmpty = true := by
  refine ⟨_, _, bstreeToArray_eq t array hcap, ?_, ?_, length_inorder t.root,
    sorted_inorder t.root h, ?_, rfl⟩
  · simp only [List.length_append, List.length_map, List.length_drop, length_inorder]
    omega
  · rw [List.take_left' (by simp [length_inorder])]
  · rw [List.drop_left' (by simp [length_inorder])]

theorem bstreeToArray_drains_witness :
    SearchOrder sampleTree.root ∧ size sampleTree.root ≤ (List.replicate 6 (none : Option Nat)).length ∧
      ∃ (array2 : List (Option Nat)) (t2 : BinTree Nat),
        bstreeToArray sampleTree (List.replicate 6 none) = some (array2, t2) ∧
        array2.take 5 = [some 1, some 3, some 4, some 5, some 8] ∧ t2.isEmpty = true := by
  refine ⟨by decide, by decide, ?_⟩
  obtain ⟨array2, t2, h1, _, h3, _, _, _, h7⟩ :=
    bstreeToArray_drains sampleTree (List.replicate 6 none) (by decide) (by decide)
  exact ⟨array2, t2, h1, h3, h7⟩

end BinTree

namespace BinTree

open Node

section MidOrder

variable {α : Type}

theorem drop_mid (L U : List α) (v : α) (h : L.length = (L.length + U.length) / 2) :
    (L ++ v :: U).drop (((L ++ v :: U).length - 1) / 2) = v :: U ∧
    (L ++ v :: U).take (((L ++ v :: U).length - 1) / 2) = L := by
  have hk : ((L ++ v :: U).length - 1) / 2 = L.length := by
    simp only [List.length_append, List.length_cons]
    omega
  rw [hk]
  exact ⟨List.drop_left' rfl, List.take_left' rfl⟩

theorem exists_mid_split (xs : List α) (hxs : xs ≠ []) :
    ∃ (L : List α) (v : α) (U : List α),
      xs = L ++ v :: U ∧ L.length = (L.length + U.length) / 2 := by
  have hpos : 0 < xs.length := List.length_pos.2 hxs
  have hlt : (xs.length - 1) / 2 < xs.length := by omega
  refine ⟨xs.take ((xs.length - 1) / 2), xs[(xs.length - 1) / 2],
    xs.drop ((xs.length - 1) / 2 + 1), ?_, ?_⟩
  · rw [← List.drop_eq_getElem_cons hlt, List.take_append_drop]
  · simp only [List.length_take, List.length_drop]
    omega

theorem midOrder_nil : midOrder ([] : List α) = [] := by
  rw [midOrder]
  split
  · rfl
  · rename_i heq
    simp at heq

theorem midOrder_split (L U : List α) (v : α) (h : L.length = (L.length + U.length) / 2) :
    midOrder (L ++ v :: U) = v :: (midOrder U ++ midOrder L) := by
  obtain ⟨hd, ht⟩ := drop_mid L U v h
  rw [midOrder]
  split
  · rename_i heq
    rw [hd] at heq
    exact absurd heq (by simp)
  · rename_i value upper heq
    rw [hd] at heq
    simp only [List.cons.injEq] at heq
    rw [ht, ← heq.1, ← heq.2]

theorem build_nil : build ([] : List α) = null := by
  rw [build]
  split
  · rfl
  · rename_i heq
    simp at heq

theorem build_split (L U : List α) (v : α) (h : L.length = (L.length + U.length) / 2) :
    build (L ++ v :: U) = node v (build L) (build U) := by
  obtain ⟨hd, ht⟩ := drop_mid L U v h
  rw [build]
  split
  · rename_i heq
    rw [hd] at heq
    exact absurd heq (by simp)
  · rename_i value upper heq
    rw [hd] at heq
    simp only [List.cons.injEq] at heq
    rw [ht, ← heq.1, ← heq.2]

theorem midOrder_perm (xs : List α) : (midOrder xs).Perm xs := by
  generalize hn : xs.length = n
  induction n using Nat.strong_induction_on generalizing xs with
  | _ n ih =>
    by_cases hxs : xs = []
    · rw [hxs, midOrder_nil]
    · obtain ⟨L, v, U, rfl, hL⟩ := exists_mid_split xs hxs
      simp only [List.length_append, List.length_cons] at hn
      rw [midOrder_split L U v hL]
      have hU := ih U.length (by omega) U rfl
      have hLp := ih L.length (by omega) L rfl
      refine List.Perm.trans ?_ List.perm_middle.symm
      exact List.Perm.cons _ ((hU.append hLp).trans List.perm_append_comm)

theorem inorder_build (xs : List α) : inorder (build xs) = xs := by
  generalize hn : xs.length = n
  induction n using Nat.strong_induction_on generalizing xs with
  | _ n ih =>
    by_cases hxs : xs = []
    · rw [hxs, build_nil]
      rfl
    · obtain ⟨L, v, U, rfl, hL⟩ := exists_mid_split xs hxs
      simp only [List.length_append, List.length_cons] at hn
      rw [build_split L U v hL]
      simp only [inorder]
      rw [ih U.length (by omega) U rfl, ih L.length (by omega) L rfl]

theorem clog_two_step (n : Nat) (hn : 1 ≤ n) :
    Nat.clog 2 (n + 1) = 1 + Nat.clog 2 (n / 2 + 1) := by
  rw [Nat.clog_of_two_le (by decide) (by omega)]
  have : (n + 1 + 2 - 1) / 2 = n / 2 + 1 := by omega
  rw [this]
  omega

theorem height_build (xs : List α) : height (build xs) = Nat.clog 2 (xs.length + 1) := by
  generalize hn : xs.length = n
  induction n using Nat.strong_induction_on generalizing xs with
  | _ n ih =>
    by_cases hxs : xs = []
    · subst hn
      rw [hxs, build_nil]
      simp [height]
    · obtain ⟨L, v, U, rfl, hL⟩ := exists_mid_split xs hxs
      simp only [List.length_append, List.length_cons] at hn
      rw [build_split L U v hL]
      simp only [height]
      rw [ih U.length (by omega) U rfl, ih L.length (by omega) L rfl]
      have hmono : Nat.clog 2 (L.length + 1) ≤ Nat.clog 2 (U.length + 1) :=
        Nat.clog_mono_right 2 (by omega)
      rw [max_eq_right hmono]
      subst hn
      rw [clog_two_step (L.length + (U.length + 1)) (by omega)]
      have h2 : (L.length + (U.length + 1)) / 2 = U.length := by omega
      rw [h2]

theorem getElem?_length_append {β : Type} (pre post : List β) (x : β) :
    (pre ++ x :: post)[pre.length]? = some x := by
  induction pre with
  | nil => simp
  | cons a pre ih => simpa using ih

theorem midpoint_eq (p l u : Nat) (hl : l = (l + u) / 2) :
    ((p : Int) + (((p + (l + (u + 1)) : Nat) : Int) - 1)).tdiv 2 = ((p + l : Nat) : Int) := by
  rw [Int.tdiv_eq_ediv (by omega) (by decide)]
  omega

theorem arrayToBSTreeSize_eq (xs : List α) (rest : List (Option α)) (k : Nat) :
    arrayToBSTreeSize (xs.map some ++ none :: rest) k = some (k + xs.length) := by
  induction xs generalizing k with
  | nil => rfl
  | cons x xs ih =>
    show arrayToBSTreeSize (xs.map some ++ none :: rest) (k + 1) = some (k + (xs.length + 1))
    rw [ih]
    exact congrArg some (by omega)

end MidOrder

end BinTree

namespace BinTree

open Node

variable {α : Type} [LinearOrder α]

theorem arrayToBSTreeHelper_nil (t : BinTree α) (array : List (Option α)) (low high : Int)
    (h : high < low) : arrayToBSTreeHelper t array low high = some (array, t) := by
  rw [arrayToBSTreeHelper, dif_neg (by omega)]

theorem arrayToBSTreeHelper_step (t : BinTree α) (array : List (Option α)) (low high : Int)
    (i : Nat) (v : α) (hle : low ≤ high) (hi : (low + high).tdiv 2 = (i : Int))
    (hv : array[i]? = some (some v)) :
    arrayToBSTreeHelper t array low high =
      match arrayToBSTreeHelper (insert t v).2 (array.set i none) ((i : Int) + 1) high with
      | none => none
      | some (array2, t2) => arrayToBSTreeHelper t2 array2 low ((i : Int) - 1) := by
  rw [arrayToBSTreeHelper, dif_pos hle]
  simp only [hi, Int.toNat_ofNat, hv]
  rw [if_neg (by omega)]

theorem insertAll_append (t : BinTree α) (xs ys : List α) :
    insertAll t (xs ++ ys) = insertAll (insertAll t xs) ys := by
  simp [insertAll, List.foldl_append]

theorem insertAll_cons (t : BinTree α) (x : α) (xs : List α) :
    insertAll t (x :: xs) = insertAll (insert t x).2 xs := rfl

theorem arrayToBSTreeHelper_eq (xs : List α) (t : BinTree α) (pre post : List (Option α)) :
    arrayToBSTreeHelper t (pre ++ xs.map some ++ post) (pre.length : Int)
        (((pre.length + xs.length : Nat) : Int) - 1) =
      some (pre ++ List.replicate xs.length none ++ post, insertAll t (midOrder xs)) := by
  generalize hn : xs.length = n
  induction n using Nat.strong_induction_on generalizing xs t pre post with
  | _ n ih =>
    by_cases hxs : xs = []
    · subst hxs
      subst hn
      rw [arrayToBSTreeHelper_nil _ _ _ _ (by simp)]
      simp [midOrder_nil, insertAll]
    · obtain ⟨L, v, U, rfl, hL⟩ := exists_mid_split xs hxs
      simp only [List.length_append, List.length_cons] at hn
      subst hn
      have harr : pre ++ (L ++ v :: U).map some ++ post =
          (pre ++ L.map some) ++ some v :: (U.map some ++ post) := by simp
      have hlen : (pre ++ L.map some).length = pre.length + L.length := by simp
      rw [arrayToBSTreeHelper_step t _ _ _ (pre.length + L.length) v (by omega)
        (midpoint_eq pre.length L.length U.length hL)
        (by rw [harr, ← hlen]; exact getElem?_length_append _ _ _)]
      have hset : (pre ++ (L ++ v :: U).map some ++ post).set (pre.length + L.length) none =
          (pre ++ L.map some ++ [none]) ++ U.map some ++ post := by
        rw [harr, ← hlen, set_length_append]
        simp
      have hlow : ((pre.length + L.length : Nat) : Int) + 1 =
          ((pre ++ L.map some ++ [none]).length : Int) := by
        simp only [List.length_append, List.length_map, List.length_cons, List.length_nil]
        omega
      have hhigh : (((pre.length + (L.length + (U.length + 1)) : Nat) : Int) - 1) =
          ((((pre ++ L.map some ++ [none]).length + U.length : Nat) : Int) - 1) := by
        simp only [List.length_append, List.length_map, List.length_cons, List.length_nil]
        omega
      rw [hset, hlow, hhigh, ih U.length (by omega) U _ _ _ rfl]
      simp only []
      have harr2 : pre ++ L.map some ++ [none] ++ List.replicate U.length none ++ post =
          pre ++ L.map some ++ (none :: (List.replicate U.length none ++ post)) := by simp
      rw [harr2, ih L.length (by omega) L _ _ _ rfl]
      rw [midOrder_split L U v hL, insertAll_cons, insertAll_append]
      simp only [Option.some.injEq, Prod.mk.injEq, and_true]
      simp [List.replicate_add, List.replicate_succ]

theorem arrayToBSTree_eq (t : BinTree α) (xs : List α) (rest : List (Option α)) :
    arrayToBSTree t (xs.map some ++ none :: rest) =
      some (List.replicate xs.length none ++ none :: rest, insertAll t (midOrder xs)) := by
  rw [arrayToBSTree, arrayToBSTreeSize_eq]
  have h := arrayToBSTreeHelper_eq xs t [] (none :: rest)
  simp only [List.nil_append, List.length_nil, Nat.cast_zero] at h
  simpa using h

end BinTree

namespace Node

variable {α : Type} [LinearOrder α]

theorem foldl_ins_node (ys : List α) (d : α) (l r : Node α) :
    ys.foldl (fun n x => ins x n) (node d l r) =
      node d ((ys.filter (fun y => decide (y < d))).foldl (fun n x => ins x n) l)
        ((ys.filter (fun y => decide (d < y))).foldl (fun n x => ins x n) r) := by
  induction ys generalizing l r with
  | nil => rfl
  | cons y ys ih =>
    simp only [List.foldl_cons, ins]
    by_cases h1 : y = d
    · subst h1
      simp [ih]
    · by_cases h2 : y < d
      · simp [h1, h2, ih, List.filter_cons, not_lt.2 h2.le]
      · have h3 : d < y := lt_of_le_of_ne (not_lt.1 h2) (Ne.symm h1)
        simp [h1, h2, h3, ih, List.filter_cons]

theorem getDepthHelper_le_height (q : α) (t : Node α) :
    BinTree.getDepthHelper q t ≤ (height t : Int) := by
  induction t with
  | null => simp [BinTree.getDepthHelper, height]
  | node data left right ihl ihr =>
    simp only [BinTree.getDepthHelper, height, Nat.cast_add, Nat.cast_one, Nat.cast_max]
    split_ifs <;> omega

end Node

namespace BinTree

open Node

variable {α : Type} [LinearOrder α]

theorem foldl_ins_midOrder (xs : List α) (h : xs.Sorted (· < ·)) :
    (midOrder xs).foldl (fun n x => ins x n) null = build xs := by
  generalize hn : xs.length = n
  induction n using Nat.strong_induction_on generalizing xs with
  | _ n ih =>
    by_cases hxs : xs = []
    · rw [hxs, midOrder_nil, build_nil]
      rfl
    · obtain ⟨L, v, U, rfl, hL⟩ := exists_mid_split xs hxs
      simp only [List.length_append, List.length_cons] at hn
      simp only [List.Sorted, List.pairwise_append, List.pairwise_cons, List.mem_cons] at h
      obtain ⟨hLs, ⟨hvU, hUs⟩, hLU⟩ := h
      rw [midOrder_split L U v hL, build_split L U v hL]
      simp only [List.foldl_cons, ins]
      rw [foldl_ins_node]
      have hfl : (midOrder U ++ midOrder L).filter (fun y => decide (y < v)) = midOrder L := by
        rw [List.filter_append]
        have h1 : (midOrder U).filter (fun y => decide (y < v)) = [] := by
          rw [List.filter_eq_nil_iff]
          intro a ha
          have := hvU a ((midOrder_perm U).mem_iff.1 ha)
          simp [not_lt.2 this.le]
        have h2 : (midOrder L).filter (fun y => decide (y < v)) = midOrder L := by
          rw [List.filter_eq_self]
          intro a ha
          have := hLU a ((midOrder_perm L).mem_iff.1 ha) v (Or.inl rfl)
          simp [this]
        rw [h1, h2, List.nil_append]
      have hfu : (midOrder U ++ midOrder L).filter (fun y => decide (v < y)) = midOrder U := by
        rw [List.filter_append]
        have h1 : (midOrder U).filter (fun y => decide (v < y)) = midOrder U := by
          rw [List.filter_eq_self]
          intro a ha
          have := hvU a ((midOrder_perm U).mem_iff.1 ha)
          simp [this]
        have h2 : (midOrder L).filter (fun y => decide (v < y)) = [] := by
          rw [List.filter_eq_nil_iff]
          intro a ha
          have := hLU a ((midOrder_perm L).mem_iff.1 ha) v (Or.inl rfl)
          simp [not_lt.2 this.le]
        rw [h1, h2, List.append_nil]
      rw [hfl, hfu, ih L.length (by omega) L hLs rfl, ih U.length (by omega) U hUs rfl]

theorem insertAll_empty_midOrder (xs : List α) (h : xs.Sorted (· < ·)) :
    insertAll empty (midOrder xs) = ⟨build xs⟩ := by
  have := insertAll_root (empty : BinTree α) (midOrder xs)
  rw [show (empty : BinTree α).root = null from rfl, foldl_ins_midOrder xs h] at this
  cases hres : insertAll (empty : BinTree α) (midOrder xs) with
  | mk root =>
    rw [hres] at this
    simp only at this
    rw [this]

/-- C8: round trip.  A tree of `n` nodes with the search-order invariant is drained by
`bstreeToArray` into an array of `m > n` slots that are all NULL, and `arrayToBSTree` is
then called on that array: both calls return, and the inorder traversal of the rebuilt
tree is the drained sequence, which is the inorder traversal of the tree at the start. -/
theorem roundTrip_inorder (t : BinTree α) (m : Nat) (h : SearchOrder t.root)
    (hm : size t.root < m) :
    ∃ (drained : List (Option α)) (t1 : BinTree α) (array2 : List (Option α))
      (t2 : BinTree α),
      bstreeToArray t (List.replicate m none) = some (drained, t1) ∧
      arrayToBSTree t1 drained = some (array2, t2) ∧
      drained.take (size t.root) = (inorder t.root).map some ∧
      (inorder t2.root).map some = drained.take (size t.root) ∧
      inorder t2.root = inorder t.root := by
  have hdrain := bstreeToArray_eq t (List.replicate m (none : Option α))
    (by rw [List.length_replicate]; omega)
  have hrest : (List.replicate m (none : Option α)).drop (size t.root) =
      none :: List.replicate (m - size t.root - 1) none := by
    rw [List.drop_replicate]
    have : m - size t.root = (m - size t.root - 1) + 1 := by omega
    rw [this, List.replicate_succ]
    simp
  rw [hrest] at hdrain
  have hsorted := sorted_inorder t.root h
  have hbuild := arrayToBSTree_eq (⟨null⟩ : BinTree α) (inorder t.root)
    (List.replicate (m - size t.root - 1) none)
  rw [show (⟨null⟩ : BinTree α) = empty from rfl, insertAll_empty_midOrder _ hsorted] at hbuild
  have htake : (List.map some (inorder t.root) ++
      none :: List.replicate (m - size t.root - 1) none).take (size t.root) =
      (inorder t.root).map some := List.take_left' (by simp [length_inorder])
  refine ⟨_, _, _, _, hdrain, hbuild, htake, ?_, ?_⟩
  · rw [htake, inorder_build]
  · exact inorder_build _

theorem roundTrip_inorder_witness :
    SearchOrder sampleTree.root ∧ size sampleTree.root < 6 ∧
      ∃ (drained : List (Option Nat)) (t1 : BinTree Nat) (array2 : List (Option Nat))
        (t2 : BinTree Nat),
        bstreeToArray sampleTree (List.replicate 6 none) = some (drained, t1) ∧
        arrayToBSTree t1 drained = some (array2, t2) ∧
        inorder t2.root = [1, 3, 4, 5, 8] := by
  refine ⟨by decide, by decide, ?_⟩
  obtain ⟨drained, t1, array2, t2, h1, h2, _, _, h5⟩ :=
    roundTrip_inorder sampleTree 6 (by decide) (by decide)
  exact ⟨drained, t1, array2, t2, h1, h2, h5.trans (by decide)⟩

/-- C9: minimal height.  On a strictly ascending sequence of `n` entries followed by a
NULL slot, `arrayToBSTree` called on the empty tree returns, and the height of the tree
it leaves is the ceiling of `log2 (n + 1)`; no `getDepth` exceeds the height, and when
`n > 0` some stored element has `getDepth` equal to it. -/
theorem arrayToBSTree_height (xs : List α) (rest : List (Option α))
    (h : xs.Sorted (· < ·)) :
    ∃ (array2 : List (Option α)) (t2 : BinTree α),
      arrayToBSTree empty (xs.map some ++ none :: rest) = some (array2, t2) ∧
      height t2.root = Nat.clog 2 (xs.length + 1) ∧
      (∀ x : α, getDepth t2 x ≤ (height t2.root : Int)) ∧
      (xs ≠ [] → ∃ x ∈ xs, getDepth t2 x = (height t2.root : Int)) := by
  have hbuild := arrayToBSTree_eq (empty : BinTree α) xs rest
  rw [insertAll_empty_midOrder xs h] at hbuild
  refine ⟨_, _, hbuild, height_build xs, fun x => getDepthHelper_le_height x _, ?_⟩
  intro hxs
  have hne : build xs ≠ null := by
    intro hnull
    have := inorder_build xs
    rw [hnull] at this
    exact hxs this.symm
  obtain ⟨p, x, hp, hlen⟩ := exists_elemAt_height (build xs) hne
  have hso : SearchOrder (build xs) := by
    rw [← foldl_ins_midOrder xs h]
    exact searchOrder_foldl_ins _ _ trivial
  refine ⟨x, ?_, ?_⟩
  · have := mem_of_elemAt (build xs) p x hp
    rwa [inorder_build] at this
  · show getDepthHelper x (build xs) = _
    rw [getDepthHelper_of_elemAt x (build xs) hso p hp, ← hlen]
    push_cast
    omega

theorem arrayToBSTree_height_witness :
    [1, 3, 4, 5, 8].Sorted (· < ·) ∧
      ∃ (array2 : List (Option Nat)) (t2 : BinTree Nat),
        arrayToBSTree empty ([1, 3, 4, 5, 8].map some ++ none :: []) = some (array2, t2) ∧
        height t2.root = Nat.clog 2 (5 + 1) := by
  have hs : [1, 3, 4, 5, 8].Sorted (· < ·) := by decide
  refine ⟨hs, ?_⟩
  obtain ⟨array2, t2, h1, h2, _, _⟩ := arrayToBSTree_height [1, 3, 4, 5, 8] [] hs
  exact ⟨array2, t2, h1, h2⟩

end BinTree

namespace BinTree

open Node

section Copy

variable {α : Type}

theorem copyHelper_eq (t : Node α) : copyHelper t = t := by
  induction t with
  | null => rfl
  | node data left right ihl ihr => simp only [copyHelper, ihl, ihr]

theorem makeEmptyHelper_eq (t : Node α) : makeEmptyHelper t = null := by
  cases t <;> rfl

end Copy

variable {α : Type} [LinearOrder α]

theorem getDepthGuided_eq (q : α) (t : Node α) (h : SearchOrder t) :
    getDepthHelper q t = getDepthGuided q t := by
  induction t with
  | null => rfl
  | node data left right ihl ihr =>
    obtain ⟨hl, hr, sl, sr⟩ := h
    have hnl := getDepthHelper_nonneg q left
    have hnr := getDepthHelper_nonneg q right
    simp only [getDepthHelper, getDepthGuided, ← ihl sl, ← ihr sr]
    by_cases h1 : data = q
    · simp [h1]
    · simp only [h1, if_false]
      by_cases h2 : q < data
      · have hr0 : getDepthHelper q right = 0 :=
          (getDepthHelper_eq_zero_iff q right).2
            (fun hm => absurd (hr q hm) (not_lt.2 h2.le))
        simp only [h2, if_true, hr0]
        by_cases hz : getDepthHelper q left = 0
        · simp [hz]
        · have hpos : getDepthHelper q left > 0 := by omega
          simp [hz, hpos]
      · have hl0 : getDepthHelper q left = 0 :=
          (getDepthHelper_eq_zero_iff q left).2 (fun hm => absurd (hl q hm) h2)
        simp only [h2, if_false, hl0]
        by_cases hz : getDepthHelper q right = 0
        · simp [hz]
        · have hpos : ¬ (0 > getDepthHelper q right) := by omega
          simp [hz, hpos]

/-- C11 (as the code has it): inserting 5, 3, 8 and inserting 5, 8, 3 into the empty tree
give the same tree, root 5 with 3 on the left and 8 on the right, and `operator==`
between the two returns true in both orders.  Structural equality is still not equality of
the sets of elements: inserting 3, 5, 8 gives a tree with the same elements and another
shape, and `operator==` between it and the first returns false in both orders. -/
theorem eq_insertion_orders :
    insertAll (empty : BinTree Nat) [5, 3, 8] = insertAll empty [5, 8, 3] ∧
    insertAll (empty : BinTree Nat) [5, 3, 8] =
      ⟨node 5 (node 3 null null) (node 8 null null)⟩ ∧
    eq (insertAll (empty : BinTree Nat) [5, 3, 8]) (insertAll empty [5, 8, 3]) = true ∧
    eq (insertAll (empty : BinTree Nat) [5, 8, 3]) (insertAll empty [5, 3, 8]) = true ∧
    (inorder (insertAll (empty : BinTree Nat) [3, 5, 8]).root).Perm
      (inorder (insertAll (empty : BinTree Nat) [5, 3, 8]).root) ∧
    insertAll (empty : BinTree Nat) [3, 5, 8] ≠ insertAll empty [5, 3, 8] ∧
    eq (insertAll (empty : BinTree Nat) [5, 3, 8]) (insertAll empty [3, 5, 8]) = false ∧
    eq (insertAll (empty : BinTree Nat) [3, 5, 8]) (insertAll empty [5, 3, 8]) = false := by
  decide

/-- C11, against the claim as it was written: the trees made by the insertion orders
5, 3, 8 and 5, 8, 3 do not differ, and `operator==` between them does not return false. -/
theorem eq_insertion_orders_counterexample :
    ¬ (insertAll (empty : BinTree Nat) [5, 3, 8] ≠ insertAll empty [5, 8, 3] ∧
      eq (insertAll (empty : BinTree Nat) [5, 3, 8]) (insertAll empty [5, 8, 3]) = false ∧
      eq (insertAll (empty : BinTree Nat) [5, 8, 3]) (insertAll empty [5, 3, 8]) = false) := by
  decide

/-- C12: the tree made by the copy constructor from `t`, and the target of an assignment
from `t` whatever it held before, is the same tree as `t` and equal to `t` under
`operator==`, in both orders.  (`other` is passed by reference to const and only read:
the functions return the new object alone.) -/
theorem copy_fidelity (t target : BinTree α) :
    copy t = t ∧ eq (copy t) t = true ∧ eq t (copy t) = true ∧
    assign target t = t ∧ eq (assign target t) t = true ∧ eq t (assign target t) = true := by
  have h1 : copy t = t := by
    obtain ⟨root⟩ := t
    simp only [copy, copyHelper_eq]
  have h2 : assign target t = t := by
    obtain ⟨root⟩ := t
    simp only [assign, copyHelper_eq]
  have hrefl : eq t t = true := (equalityHelper_iff _ _).2 rfl
  refine ⟨h1, ?_, ?_, h2, ?_, ?_⟩
  · rw [h1]; exact hrefl
  · rw [h1]; exact hrefl
  · rw [h2]; exact hrefl
  · rw [h2]; exact hrefl

end BinTree

namespace BinTree

open Node

section Clear

variable {α : Type}

/-- C14: after `makeEmpty` the tree is empty; on an empty tree `makeEmpty` changes
nothing; and `makeEmpty` twice is `makeEmpty` once. -/
theorem makeEmpty_idempotent (t : BinTree α) :
    (makeEmpty t).isEmpty = true ∧
    (t.isEmpty = true → makeEmpty t = t) ∧
    makeEmpty (makeEmpty t) = makeEmpty t ∧
    makeEmptyHelper t.root = null := by
  obtain ⟨root⟩ := t
  cases root with
  | null => exact ⟨rfl, fun _ => rfl, rfl, rfl⟩
  | node d l r =>
    refine ⟨rfl, ?_, rfl, rfl⟩
    intro h
    simp [isEmpty] at h

theorem makeEmpty_idempotent_witness :
    (makeEmpty sampleTree).isEmpty = true ∧
      makeEmpty (makeEmpty sampleTree) = makeEmpty sampleTree ∧
      makeEmpty (empty : BinTree Nat) = empty :=
  ⟨(makeEmpty_idempotent sampleTree).1, (makeEmpty_idempotent sampleTree).2.2.1,
    (makeEmpty_idempotent (empty : BinTree Nat)).2.1 rfl⟩

end Clear

end BinTree

namespace BinTree

open Node

variable {α : Type} [LinearOrder α]

/-- C17: on a tree with the search-order invariant, `getDepthHelper`, which searches both
subtrees of every node that does not match, returns the same integer as the search guided
by the ordering. -/
theorem getDepth_guided (t : BinTree α) (q : α) (h : SearchOrder t.root) :
    getDepth t q = getDepthGuided q t.root ∧ getDepthHelper q t.root = getDepthGuided q t.root :=
  ⟨getDepthGuided_eq q t.root h, getDepthGuided_eq q t.root h⟩

theorem getDepth_guided_witness :
    SearchOrder sampleTree.root ∧ getDepth sampleTree 4 = getDepthGuided 4 sampleTree.root ∧
      getDepthGuided 4 sampleTree.root = 3 :=
  ⟨by decide, (getDepth_guided sampleTree 4 (by decide)).1, by decide⟩

end BinTree

namespace BinTree

open Node

section Text

variable {α : Type}

theorem foldl_append_acc (l : List String) (a : String) :
    l.foldl (fun r s => r ++ s) a = a ++ String.join l := by
  induction l generalizing a with
  | nil => simp [String.join]
  | cons x l ih =>
    simp only [String.join, List.foldl_cons] at ih ⊢
    rw [ih (a ++ x), ih ("" ++ x), String.empty_append, String.append_assoc]

theorem join_cons (x : String) (l : List String) : String.join (x :: l) = x ++ String.join l := by
  simp only [String.join, List.foldl_cons]
  rw [foldl_append_acc, String.empty_append]
  rfl

theorem join_append (l1 l2 : List String) :
    String.join (l1 ++ l2) = String.join l1 ++ String.join l2 := by
  induction l1 with
  | nil => simp [String.join]
  | cons x l ih => simp only [List.cons_append, join_cons, ih, String.append_assoc]

theorem foldl_disp_eq (f : α → String) (l : List α) (output : String) :
    l.foldl (fun out x => out ++ f x ++ " ") output =
      output ++ String.join (l.map (fun x => f x ++ " ")) := by
  induction l generalizing output with
  | nil => simp [String.join]
  | cons x l ih =>
    simp only [List.foldl_cons, List.map_cons, join_cons]
    rw [ih]
    simp only [String.append_assoc]

theorem spaces_add (m n : Nat) : spaces m ++ spaces n = spaces (m + n) := by
  apply String.ext
  show List.replicate m ' ' ++ List.replicate n ' ' = List.replicate (m + n) ' '
  rw [List.replicate_add]

theorem sidewaysIndent_eq (output : String) (k : Nat) :
    sidewaysIndent output (k : Int) = output ++ spaces (4 * (k + 1)) := by
  induction k generalizing output with
  | zero =>
    rw [sidewaysIndent, if_pos (by simp), sidewaysIndent, if_neg (by simp)]
    rfl
  | succ k ih =>
    rw [sidewaysIndent, if_pos (by omega)]
    have hk : ((k + 1 : Nat) : Int) - 1 = (k : Int) := by omega
    rw [hk, ih, String.append_assoc]
    have h4 : ("    " : String) = spaces 4 := rfl
    rw [h4, spaces_add]
    congr 2
    omega

theorem sideways_eq (disp : α → String) (output : String) (t : Node α) (level : Nat) :
    sideways disp output t (level : Int) =
      output ++ String.join ((sidewaysEntries t (level + 1)).map
        (fun e => spaces (4 * (e.1 + 1)) ++ disp e.2 ++ "\n")) := by
  induction t generalizing output level with
  | null => simp [sideways, sidewaysEntries, String.join]
  | node data left right ihl ihr =>
    have hl : ((level : Int) + 1) = ((level + 1 : Nat) : Int) := by omega
    simp only [sideways, sidewaysEntries, hl, ihl, ihr, sidewaysIndent_eq, List.map_append,
      List.map_cons, join_append, join_cons, String.append_assoc]

theorem displaySideways_eq (disp : α → String) (output : String) (t : BinTree α) :
    displaySideways disp output t =
      output ++ String.join ((sidewaysEntries t.root 1).map
        (fun e => spaces (4 * (e.1 + 1)) ++ disp e.2 ++ "\n")) := by
  have := sideways_eq disp output t.root 0
  simpa [displaySideways] using this

theorem sidewaysEntries_snd (t : Node α) (k : Nat) :
    (sidewaysEntries t k).map Prod.snd = (inorder t).reverse := by
  induction t generalizing k with
  | null => rfl
  | node data left right ihl ihr =>
    simp [sidewaysEntries, inorder, ihl, ihr]

theorem sidewaysEntries_elemAt (t : Node α) (k : Nat) (e : Nat × α)
    (he : e ∈ sidewaysEntries t k) :
    ∃ p : List Bool, elemAt t p = some e.2 ∧ e.1 = k + p.length := by
  induction t generalizing k with
  | null => simp [sidewaysEntries] at he
  | node data left right ihl ihr =>
    simp only [sidewaysEntries, List.mem_append, List.mem_cons] at he
    rcases he with he | he | he
    · obtain ⟨p, hp, hd⟩ := ihr (k + 1) he
      exact ⟨true :: p, by simpa [elemAt] using hp, by simp only [List.length_cons]; omega⟩
    · subst he
      exact ⟨[], rfl, rfl⟩
    · obtain ⟨p, hp, hd⟩ := ihl (k + 1) he
      exact ⟨false :: p, by simpa [elemAt] using hp, by simp only [List.length_cons]; omega⟩

end Text

end BinTree

namespace BinTree

open Node

section Output

variable {α : Type}

/-- C13: the text that `operator<<` writes is, for every tree, the display form of each
element followed by one space, in inorder, then one newline; for the empty tree it is
the newline alone.  After inserting 5, 3, 8, 1, 4 it is "1 3 4 5 8 " and a newline. -/
theorem print_format (disp : α → String) (output : String) (tree : BinTree α) :
    print disp output tree =
      output ++ String.join ((inorder tree.root).map (fun x => disp x ++ " ")) ++ "\n" ∧
    print disp output empty = output ++ "\n" ∧
    print (fun n : Nat => toString n) "" (insertAll empty [5, 3, 8, 1, 4]) =
      "1 3 4 5 8 \n" := by
  refine ⟨?_, rfl, by decide⟩
  rw [print_eq, foldl_disp_eq]

end Output

end BinTree

namespace BinTree

open Node

variable {α : Type} [LinearOrder α]

/-- C18 (as the code has it): `displaySideways` writes one line per node, visiting the
right subtree, then the node, then the left subtree, so the elements come in the reverse
of inorder; the line of a node at depth `d` (the root at depth 1, as `getDepth` numbers
the nodes of a tree with the search-order invariant) is `4 * (d + 1)` spaces, the
display form of the element and a newline. -/
theorem displaySideways_format (disp : α → String) (output : String) (t : BinTree α) :
    displaySideways disp output t =
      output ++ String.join ((sidewaysEntries t.root 1).map
        (fun e => spaces (4 * (e.1 + 1)) ++ disp e.2 ++ "\n")) ∧
    (sidewaysEntries t.root 1).map Prod.snd = (inorder t.root).reverse ∧
    (sidewaysEntries t.root 1).length = size t.root ∧
    (SearchOrder t.root → ∀ e ∈ sidewaysEntries t.root 1, getDepth t e.2 = (e.1 : Int)) := by
  refine ⟨displaySideways_eq disp output t, sidewaysEntries_snd t.root 1, ?_, ?_⟩
  · have h := congrArg List.length (sidewaysEntries_snd t.root 1)
    simpa [length_inorder] using h
  · intro hs e he
    obtain ⟨p, hp, hd⟩ := sidewaysEntries_elemAt t.root 1 e he
    show getDepthHelper e.2 t.root = _
    rw [getDepthHelper_of_elemAt e.2 t.root hs p hp, hd]
    push_cast
    rfl

theorem displaySideways_format_witness :
    SearchOrder sampleTree.root ∧
      ∀ e ∈ sidewaysEntries sampleTree.root 1, getDepth sampleTree e.2 = (e.1 : Int) :=
  ⟨by decide,
    (displaySideways_format (fun n : Nat => toString n) "" sampleTree).2.2.2 (by decide)⟩

/-- C18, against the claim as it was written: the root of a one-node tree, at depth 1,
is written after 8 spaces, not after 4. -/
theorem displaySideways_counterexample :
    displaySideways (fun n : Nat => toString n) "" ⟨node 5 null null⟩ =
        spaces 8 ++ "5" ++ "\n" ∧
      displaySideways (fun n : Nat => toString n) "" ⟨node 5 null null⟩ ≠
        spaces (4 * 1) ++ "5" ++ "\n" := by
  rw [displaySideways_eq]
  decide

end BinTree

namespace BinTree

open Node

section LowerFirst

variable {α : Type}

theorem midOrderLowerFirst_nil : midOrderLowerFirst ([] : List α) = [] := by
  rw [midOrderLowerFirst]
  split
  · rfl
  · rename_i heq
    simp at heq

theorem midOrderLowerFirst_split (L U : List α) (v : α)
    (h : L.length = (L.length + U.length) / 2) :
    midOrderLowerFirst (L ++ v :: U) =
      v :: (midOrderLowerFirst L ++ midOrderLowerFirst U) := by
  obtain ⟨hd, ht⟩ := drop_mid L U v h
  rw [midOrderLowerFirst]
  split
  · rename_i heq
    rw [hd] at heq
    exact absurd heq (by simp)
  · rename_i value upper heq
    rw [hd] at heq
    simp only [List.cons.injEq] at heq
    rw [ht, ← heq.1, ← heq.2]

theorem midOrderLowerFirst_perm (xs : List α) : (midOrderLowerFirst xs).Perm xs := by
  generalize hn : xs.length = n
  induction n using Nat.strong_induction_on generalizing xs with
  | _ n ih =>
    by_cases hxs : xs = []
    · rw [hxs, midOrderLowerFirst_nil]
    · obtain ⟨L, v, U, rfl, hL⟩ := exists_mid_split xs hxs
      simp only [List.length_append, List.length_cons] at hn
      rw [midOrderLowerFirst_split L U v hL]
      have hU := ih U.length (by omega) U rfl
      have hLp := ih L.length (by omega) L rfl
      refine List.Perm.trans ?_ List.perm_middle.symm
      exact List.Perm.cons _ (hLp.append hU)

end LowerFirst

variable {α : Type} [LinearOrder α]

theorem arrayToBSTreeHelperLowerFirst_nil (t : BinTree α) (array : List (Option α))
    (low high : Int) (h : high < low) :
    arrayToBSTreeHelperLowerFirst t array low high = some (array, t) := by
  rw [arrayToBSTreeHelperLowerFirst, dif_neg (by omega)]

theorem arrayToBSTreeHelperLowerFirst_step (t : BinTree α) (array : List (Option α))
    (low high : Int) (i : Nat) (v : α) (hle : low ≤ high)
    (hi : (low + high).tdiv 2 = (i : Int)) (hv : array[i]? = some (some v)) :
    arrayToBSTreeHelperLowerFirst t array low high =
      match arrayToBSTreeHelperLowerFirst (insert t v).2 (array.set i none) low
          ((i : Int) - 1) with
      | none => none
      | some (array2, t2) => arrayToBSTreeHelperLowerFirst t2 array2 ((i : Int) + 1) high := by
  rw [arrayToBSTreeHelperLowerFirst, dif_pos hle]
  simp only [hi, Int.toNat_ofNat, hv]
  rw [if_neg (by omega)]

theorem arrayToBSTreeHelperLowerFirst_eq (xs : List α) (t : BinTree α)
    (pre post : List (Option α)) :
    arrayToBSTreeHelperLowerFirst t (pre ++ xs.map some ++ post) (pre.length : Int)
        (((pre.length + xs.length : Nat) : Int) - 1) =
      some (pre ++ List.replicate xs.length none ++ post,
        insertAll t (midOrderLowerFirst xs)) := by
  generalize hn : xs.length = n
  induction n using Nat.strong_induction_on generalizing xs t pre post with
  | _ n ih =>
    by_cases hxs : xs = []
    · subst hxs
      subst hn
      rw [arrayToBSTreeHelperLowerFirst_nil _ _ _ _ (by simp)]
      simp [midOrderLowerFirst_nil, insertAll]
    · obtain ⟨L, v, U, rfl, hL⟩ := exists_mid_split xs hxs
      simp only [List.length_append, List.length_cons] at hn
      subst hn
      have harr : pre ++ (L ++ v :: U).map some ++ post =
          (pre ++ L.map some) ++ some v :: (U.map some ++ post) := by simp
      have hlen : (pre ++ L.map some).length = pre.length + L.length := by simp
      rw [arrayToBSTreeHelperLowerFirst_step t _ _ _ (pre.length + L.length) v (by omega)
        (midpoint_eq pre.length L.length U.length hL)
        (by rw [harr, ← hlen]; exact getElem?_length_append _ _ _)]
      have hset : (pre ++ (L ++ v :: U).map some ++ post).set (pre.length + L.length) none =
          pre ++ L.map some ++ (none :: (U.map some ++ post)) := by
        rw [harr, ← hlen, set_length_append]
      rw [hset, ih L.length (by omega) L _ _ _ rfl]
      simp only []
      have harr2 : pre ++ List.replicate L.length none ++ none :: (U.map some ++ post) =
          (pre ++ List.replicate L.length none ++ [none]) ++ U.map some ++ post := by simp
      have hlow : ((pre.length + L.length : Nat) : Int) + 1 =
          ((pre ++ List.replicate L.length none ++ [(none : Option α)]).length : Int) := by
        simp only [List.length_append, List.length_replicate, List.length_cons,
          List.length_nil]
        omega
      have hhigh2 : (((pre.length + (L.length + (U.length + 1)) : Nat) : Int) - 1) =
          ((((pre ++ List.replicate L.length none ++ [(none : Option α)]).length +
            U.length : Nat) : Int) - 1) := by
        simp only [List.length_append, List.length_replicate, List.length_cons,
          List.length_nil]
        omega
      rw [harr2, hlow, hhigh2, ih U.length (by omega) U _ _ _ rfl]
      rw [midOrderLowerFirst_split L U v hL, insertAll_cons, insertAll_append]
      simp only [Option.some.injEq, Prod.mk.injEq, and_true]
      simp [List.replicate_add, List.replicate_succ]

theorem foldl_ins_leaf_append (v : α) (as bs : List α) (hA : ∀ a ∈ as, a < v)
    (hB : ∀ b ∈ bs, v < b) :
    (as ++ bs).foldl (fun n x => ins x n) (node v null null) =
      node v (as.foldl (fun n x => ins x n) null) (bs.foldl (fun n x => ins x n) null) := by
  rw [foldl_ins_node]
  have hfl : (as ++ bs).filter (fun y => decide (y < v)) = as := by
    rw [List.filter_append]
    have h1 : as.filter (fun y => decide (y < v)) = as := by
      rw [List.filter_eq_self]
      intro a ha
      simp [hA a ha]
    have h2 : bs.filter (fun y => decide (y < v)) = [] := by
      rw [List.filter_eq_nil_iff]
      intro b hb
      simp [not_lt.2 (hB b hb).le]
    rw [h1, h2, List.append_nil]
  have hfu : (as ++ bs).filter (fun y => decide (v < y)) = bs := by
    rw [List.filter_append]
    have h1 : as.filter (fun y => decide (v < y)) = [] := by
      rw [List.filter_eq_nil_iff]
      intro a ha
      simp [not_lt.2 (hA a ha).le]
    have h2 : bs.filter (fun y => decide (v < y)) = bs := by
      rw [List.filter_eq_self]
      intro b hb
      simp [hB b hb]
    rw [h1, h2, List.nil_append]
  rw [hfl, hfu]

theorem foldl_ins_midOrderLowerFirst (xs : List α) (h : xs.Sorted (· < ·)) :
    (midOrderLowerFirst xs).foldl (fun n x => ins x n) null = build xs := by
  generalize hn : xs.length = n
  induction n using Nat.strong_induction_on generalizing xs with
  | _ n ih =>
    by_cases hxs : xs = []
    · rw [hxs, midOrderLowerFirst_nil, build_nil]
      rfl
    · obtain ⟨L, v, U, rfl, hL⟩ := exists_mid_split xs hxs
      simp only [List.length_append, List.length_cons] at hn
      simp only [List.Sorted, List.pairwise_append, List.pairwise_cons, List.mem_cons] at h
      obtain ⟨hLs, ⟨hvU, hUs⟩, hLU⟩ := h
      rw [midOrderLowerFirst_split L U v hL, build_split L U v hL]
      simp only [List.foldl_cons, ins]
      rw [foldl_ins_leaf_append v _ _
        (fun a ha => hLU a ((midOrderLowerFirst_perm L).mem_iff.1 ha) v (Or.inl rfl))
        (fun b hb => hvU b ((midOrderLowerFirst_perm U).mem_iff.1 hb))]
      rw [ih L.length (by omega) L hLs rfl, ih U.length (by omega) U hUs rfl]

theorem insertAll_empty_midOrderLowerFirst (xs : List α) (h : xs.Sorted (· < ·)) :
    insertAll empty (midOrderLowerFirst xs) = ⟨build xs⟩ := by
  have := insertAll_root (empty : BinTree α) (midOrderLowerFirst xs)
  rw [show (empty : BinTree α).root = null from rfl, foldl_ins_midOrderLowerFirst xs h] at this
  cases hres : insertAll (empty : BinTree α) (midOrderLowerFirst xs) with
  | mk root =>
    rw [hres] at this
    simp only at this
    rw [this]

/-- C15: the order of the two recursive calls does not matter.  On a range of the array
that holds a strictly ascending sequence, and from the empty tree, `arrayToBSTreeHelper`
as coded (midpoint, upper sub-range, lower sub-range) and the variant that takes the
lower sub-range first both return, leave the same array and the same tree, equal under
`operator==`; that tree is `build` of the sequence, the tree with the midpoint at the
root, `build` of the lower sub-range on the left and of the upper one on the right. -/
theorem arrayToBSTreeHelper_order_irrelevant (xs : List α) (pre post : List (Option α))
    (h : xs.Sorted (· < ·)) :
    ∃ (array2 : List (Option α)) (t2 t3 : BinTree α),
      arrayToBSTreeHelper empty (pre ++ xs.map some ++ post) (pre.length : Int)
        (((pre.length + xs.length : Nat) : Int) - 1) = some (array2, t2) ∧
      arrayToBSTreeHelperLowerFirst empty (pre ++ xs.map some ++ post) (pre.length : Int)
        (((pre.length + xs.length : Nat) : Int) - 1) = some (array2, t3) ∧
      eq t2 t3 = true ∧ t2.root = build xs ∧ t3.root = build xs ∧
      build ([] : List α) = null ∧
      ∀ (L U : List α) (v : α), L.length = (L.length + U.length) / 2 →
        build (L ++ v :: U) = node v (build L) (build U) := by
  have h2 := arrayToBSTreeHelper_eq xs (empty : BinTree α) pre post
  have h3 := arrayToBSTreeHelperLowerFirst_eq xs (empty : BinTree α) pre post
  rw [insertAll_empty_midOrder xs h] at h2
  rw [insertAll_empty_midOrderLowerFirst xs h] at h3
  exact ⟨_, _, _, h2, h3, (equalityHelper_iff _ _).2 rfl, rfl, rfl, build_nil,
    fun L U v hL => build_split L U v hL⟩

theorem arrayToBSTreeHelper_order_irrelevant_witness :
    [1, 3, 4, 5, 8].Sorted (· < ·) ∧
      ∃ (array2 : List (Option Nat)) (t2 t3 : BinTree Nat),
        arrayToBSTreeHelper empty ([] ++ [1, 3, 4, 5, 8].map some ++ [none]) 0
          ((((0 : Nat) + 5 : Nat) : Int) - 1) = some (array2, t2) ∧
        arrayToBSTreeHelperLowerFirst empty ([] ++ [1, 3, 4, 5, 8].map some ++ [none]) 0
          ((((0 : Nat) + 5 : Nat) : Int) - 1) = some (array2, t3) ∧
        eq t2 t3 = true := by
  have hs : [1, 3, 4, 5, 8].Sorted (· < ·) := by decide
  refine ⟨hs, ?_⟩
  obtain ⟨array2, t2, t3, h2, h3, he, _⟩ :=
    arrayToBSTreeHelper_order_irrelevant [1, 3, 4, 5, 8] [] [none] hs
  exact ⟨array2, t2, t3, h2, h3, he⟩

end BinTree

namespace BinTree

open Node

section Consume

variable {α : Type}

theorem midOrder_map {β : Type} (f : α → β) (xs : List α) :
    midOrder (xs.map f) = (midOrder xs).map f := by
  generalize hn : xs.length = n
  induction n using Nat.strong_induction_on generalizing xs with
  | _ n ih =>
    by_cases hxs : xs = []
    · rw [hxs]
      simp [midOrder_nil]
    · obtain ⟨L, v, U, rfl, hL⟩ := exists_mid_split xs hxs
      simp only [List.length_append, List.length_cons] at hn
      rw [midOrder_split L U v hL, List.map_append, List.map_cons,
        midOrder_split (L.map f) (U.map f) (f v) (by simpa using hL),
        ih U.length (by omega) U rfl, ih L.length (by omega) L rfl]
      simp

theorem midOrder_enum (xs : List α) :
    (midOrder xs.enum).Perm xs.enum ∧ midOrder xs = (midOrder xs.enum).map Prod.snd := by
  refine ⟨midOrder_perm _, ?_⟩
  rw [← midOrder_map, List.enum_map_snd]

theorem arrayToBSTreeSize_append_some (xs : List α) (rest : List (Option α)) (k : Nat) :
    arrayToBSTreeSize (xs.map some ++ rest) k = arrayToBSTreeSize rest (k + xs.length) := by
  induction xs generalizing k with
  | nil => rfl
  | cons x xs ih =>
    show arrayToBSTreeSize (xs.map some ++ rest) (k + 1) = _
    rw [ih]
    congr 1
    simp only [List.length_cons]
    omega

theorem arrayToBSTreeSize_ge (l : List (Option α)) (k m : Nat)
    (h : arrayToBSTreeSize l k = some m) : k ≤ m := by
  induction l generalizing k with
  | nil => simp [arrayToBSTreeSize] at h
  | cons a l ih =>
    cases a with
    | none =>
      simp only [arrayToBSTreeSize, Option.some.injEq] at h
      omega
    | some v =>
      have := ih (k + 1) h
      omega

theorem arrayToBSTreeSize_eq_self_iff (l : List (Option α)) (k : Nat) :
    arrayToBSTreeSize l k = some k ↔ l[0]? = some none := by
  cases l with
  | nil => simp [arrayToBSTreeSize]
  | cons a l =>
    cases a with
    | none => simp [arrayToBSTreeSize]
    | some v =>
      simp only [List.getElem?_cons_zero, Option.some.injEq]
      constructor
      · intro h
        have := arrayToBSTreeSize_ge l (k + 1) k h
        omega
      · intro h
        exact absurd h (by simp)

theorem midOrder_pair (a b : α) : midOrder [a, b] = [a, b] := by
  have h2 := midOrder_split ([] : List α) [b] a (by simp)
  have h1 := midOrder_split ([] : List α) [] b (by simp)
  simp only [List.nil_append, midOrder_nil, List.append_nil] at h1 h2
  rw [h2, h1]

end Consume

variable {α : Type} [LinearOrder α]

theorem getDepthHelper_ins (x y : α) (t : Node α) (h : SearchOrder t)
    (hx : x ∈ inorder t) : getDepthHelper x (ins y t) = getDepthHelper x t := by
  obtain ⟨p, hp⟩ := exists_elemAt_of_mem t x hx
  cases hc : contains y t with
  | true => rw [ins_of_contains y t hc]
  | false =>
    have hp2 := (addLeaf_ins y t hc).elemAt_eq p x hp
    rw [getDepthHelper_of_elemAt x t h p hp,
      getDepthHelper_of_elemAt x (ins y t) (searchOrder_ins y t h) p hp2]

theorem getDepthHelper_foldl_ins (x : α) (ys : List α) (t : Node α) (h : SearchOrder t)
    (hx : x ∈ inorder t) :
    getDepthHelper x (ys.foldl (fun n y => ins y n) t) = getDepthHelper x t := by
  induction ys generalizing t with
  | nil => rfl
  | cons y ys ih =>
    simp only [List.foldl_cons]
    rw [ih (ins y t) (searchOrder_ins y t h) ((mem_inorder_ins y x t).2 (Or.inr hx)),
      getDepthHelper_ins x y t h hx]

/-- C16: `arrayToBSTree` consumes its input.  On an array whose first `n` slots hold
elements and whose slot `n` is NULL, whatever the tree and whatever the elements, the call
returns; afterwards slots `0..n-1` are NULL and every slot from `n` on is as before; the
tree is the one after `insert` of the entries in midpoint order, which takes every index
of `0..n-1` once.  A slot is cleared also when its `insert` is rejected: from 1, 1 the
tree keeps one node and both slots are NULL. -/
theorem arrayToBSTree_consumes (t : BinTree α) (xs : List α) (rest : List (Option α)) :
    arrayToBSTree t (xs.map some ++ none :: rest) =
      some (List.replicate xs.length none ++ none :: rest, insertAll t (midOrder xs)) ∧
    (∀ i : Nat, i < xs.length →
      (List.replicate xs.length (none : Option α) ++ none :: rest)[i]? = some none) ∧
    (∀ i : Nat, xs.length ≤ i →
      (List.replicate xs.length (none : Option α) ++ none :: rest)[i]? =
        (xs.map some ++ none :: rest)[i]?) ∧
    (midOrder xs.enum).Perm xs.enum ∧
    midOrder xs = (midOrder xs.enum).map Prod.snd ∧
    arrayToBSTree (empty : BinTree Nat) [some 1, some 1, none] =
      some ([none, none, none], ⟨node 1 null null⟩) := by
  refine ⟨arrayToBSTree_eq t xs rest, ?_, ?_, (midOrder_enum xs).1, (midOrder_enum xs).2, ?_⟩
  · intro i hi
    rw [List.getElem?_append_left (by simpa using hi), List.getElem?_replicate, if_pos hi]
  · intro i hi
    rw [List.getElem?_append_right (by simpa using hi),
      List.getElem?_append_right (by simpa using hi)]
    simp
  · have h := arrayToBSTree_eq (empty : BinTree Nat) [1, 1] []
    rw [midOrder_pair] at h
    exact h

end BinTree

namespace BinTree

open Node

section Frame

variable {α : Type}

/-- C19: `bstreeToArray` writes only the slots it fills.  For a tree of `n` nodes and an
array of at least `n` slots the call returns, and every slot from `n` on holds what it
held before, slot `n` included: no NULL is written after the elements.  For the empty
tree the array is left as it was.  So the count that `arrayToBSTree` takes next is `n`
exactly when slot `n` was NULL before the drain. -/
theorem bstreeToArray_frame (t : BinTree α) (array : List (Option α))
    (hcap : size t.root ≤ array.length) :
    ∃ (array2 : List (Option α)) (t2 : BinTree α),
      bstreeToArray t array = some (array2, t2) ∧
      array2.length = array.length ∧
      (∀ i : Nat, size t.root ≤ i → array2[i]? = array[i]?) ∧
      (t.isEmpty = true → array2 = array) ∧
      (arrayToBSTreeSize array2 0 = some (size t.root) ↔
        array[size t.root]? = some none) := by
  refine ⟨_, _, bstreeToArray_eq t array hcap, ?_, ?_, ?_, ?_⟩
  · simp only [List.length_append, List.length_map, List.length_drop, length_inorder]
    omega
  · intro i hi
    rw [List.getElem?_append_right (by simpa [length_inorder] using hi), List.getElem?_drop]
    simp only [List.length_map, length_inorder]
    congr 1
    omega
  · intro he
    obtain ⟨root⟩ := t
    cases root with
    | null => simp [inorder, size]
    | node d l r => simp [isEmpty] at he
  · rw [arrayToBSTreeSize_append_some, length_inorder, Nat.zero_add,
      arrayToBSTreeSize_eq_self_iff, List.getElem?_drop]
    rfl

theorem bstreeToArray_frame_witness :
    size sampleTree.root ≤ (List.replicate 5 (none : Option Nat) ++ [some 9]).length ∧
      ∃ (array2 : List (Option Nat)) (t2 : BinTree Nat),
        bstreeToArray sampleTree (List.replicate 5 none ++ [some 9]) = some (array2, t2) ∧
        array2[5]? = some (some 9) ∧ arrayToBSTreeSize array2 0 ≠ some 5 := by
  refine ⟨by decide, ?_⟩
  obtain ⟨array2, t2, h1, _, h3, _, h5⟩ :=
    bstreeToArray_frame sampleTree (List.replicate 5 none ++ [some 9]) (by decide)
  refine ⟨array2, t2, h1, ?_, ?_⟩
  · rw [h3 5 (by decide)]
    decide
  · intro hcount
    have hsize : size sampleTree.root = 5 := by decide
    rw [hsize] at h5
    exact absurd (h5.1 hcount) (by decide)

end Frame

end BinTree

namespace BinTree

open Node

variable {α : Type} [LinearOrder α]

/-- C20: `arrayToBSTree` adds to the tree it is called on.  On a tree with the
search-order invariant and an array of `n` elements followed by a NULL slot, the call
returns; the tree it leaves is the one after `insert` of the entries in midpoint order,
starting from the tree as it was; it has the invariant, and every element stored before
is still stored, with the same `getDepth`. -/
theorem arrayToBSTree_adds (t : BinTree α) (xs : List α) (rest : List (Option α))
    (h : SearchOrder t.root) :
    ∃ (array2 : List (Option α)) (t2 : BinTree α),
      arrayToBSTree t (xs.map some ++ none :: rest) = some (array2, t2) ∧
      t2 = (midOrder xs).foldl (fun acc x => (insert acc x).2) t ∧
      SearchOrder t2.root ∧
      ∀ x ∈ inorder t.root, x ∈ inorder t2.root ∧ getDepth t2 x = getDepth t x := by
  refine ⟨_, _, arrayToBSTree_eq t xs rest, rfl, searchOrder_insertAll t _ h, ?_⟩
  intro x hx
  refine ⟨(mem_inorder_insertAll t _ x).2 (Or.inl hx), ?_⟩
  show getDepthHelper x (insertAll t (midOrder xs)).root = getDepthHelper x t.root
  rw [insertAll_root]
  exact getDepthHelper_foldl_ins x _ t.root h hx

theorem arrayToBSTree_adds_witness :
    SearchOrder sampleTree.root ∧
      ∃ (array2 : List (Option Nat)) (t2 : BinTree Nat),
        arrayToBSTree sampleTree ([2, 6, 7].map some ++ none :: []) = some (array2, t2) ∧
        SearchOrder t2.root ∧ getDepth t2 4 = getDepth sampleTree 4 := by
  refine ⟨by decide, ?_⟩
  obtain ⟨array2, t2, h1, _, h3, h4⟩ := arrayToBSTree_adds sampleTree [2, 6, 7] [] (by decide)
  exact ⟨array2, t2, h1, h3, (h4 4 (by decide)).2⟩

end BinTree
